import Mathlib

/-!
Verification development for the strime streaming JSON projection engine.

The definitions below are a shallow embedding of the TypeScript sources:
  * `src/src/core/tokenizer.ts` — the byte-to-token finite state machine
    (class `Tokenizer`), embedded as a pure step function over `TokState`;
  * `src/unnamed/part_011` — `buildRootIndex`, the root-key preprocessing pass;
  * `src/unnamed/part_013` — `DirectiveRegistry` (alias / coerce / default /
    formatNumber / substring);
  * `src/unnamed/part_015` — class `Engine`, the selection-driven pushdown
    automaton, embedded as a step function over `EngState` consuming tokens.

JavaScript builtin behaviour (`Number`, `parseFloat`, `TextDecoder`,
`String.fromCharCode`, `toFixed`, `substring`, truthiness) is modelled by
explicit functions, named `js...`.  Machine numbers are modelled by `Rat`
plus an explicit NaN; wall-clock time is an explicit parameter.
-/

set_option maxRecDepth 4000

namespace Strime

/-- JavaScript number: a rational value or NaN.  JS numbers are IEEE doubles;
the embedding uses exact rationals, which agrees with JS on all concrete
values appearing in the theorems below (small integers and dyadic/decimal
fractions that doubles represent exactly). -/
inductive JsNum where
  | num (q : ℚ)
  | nan
deriving DecidableEq, Repr

/-- Round half away from zero, the rounding used by `Number.prototype.toFixed`
(the ECMA spec picks the larger candidate `n` for the magnitude). -/
def jsRoundHalfAway (x : ℚ) : ℚ :=
  if 0 ≤ x then ((⌊x + 1/2⌋ : ℤ) : ℚ) else -((⌊-x + 1/2⌋ : ℤ) : ℚ)

/-- Round `q` to `d` fractional digits, modelling `Number(q.toFixed(d))`.
The decimal string produced by `toFixed` re-parses to exactly this rational
whenever it is representable (true for every concrete value used below). -/
def roundToDec (q : ℚ) (d : ℕ) : ℚ :=
  jsRoundHalfAway (q * (10 : ℚ) ^ d) / (10 : ℚ) ^ d

/-- JS whitespace recognised by `Number` / `parseFloat` trimming. -/
def jsWsChar (c : Char) : Bool :=
  c = ' ' || c = '\t' || c = '\n' || c = '\r'

/-- Decimal digit value of a character, if any. -/
def digitVal (c : Char) : Option ℕ :=
  if '0' ≤ c && c ≤ '9' then some (c.toNat - 48) else none

/-- Split a leading run of decimal digits from a character list. -/
def takeDigits : List Char → List ℕ × List Char
  | [] => ([], [])
  | c :: r =>
    match digitVal c with
    | some d => let p := takeDigits r; (d :: p.1, p.2)
    | none => ([], c :: r)

/-- Natural-number value of a digit list (most significant first). -/
def digitsVal (ds : List ℕ) : ℕ :=
  ds.foldl (fun a d => a * 10 + d) 0

/-- Parse an optional exponent part `e`/`E` `[+-]` digits.  Returns the
exponent and the remaining characters; with no valid exponent the input is
returned unchanged (exponent 0). -/
def parseExp : List Char → ℤ × List Char
  | c :: r =>
    if c = 'e' || c = 'E' then
      match r with
      | s :: r2 =>
        if s = '+' then
          match takeDigits r2 with
          | ([], _) => (0, c :: r)
          | (ds, rest) => ((digitsVal ds : ℤ), rest)
        else if s = '-' then
          match takeDigits r2 with
          | ([], _) => (0, c :: r)
          | (ds, rest) => (-(digitsVal ds : ℤ), rest)
        else
          match takeDigits (s :: r2) with
          | ([], _) => (0, c :: r)
          | (ds, rest) => ((digitsVal ds : ℤ), rest)
      | [] => (0, c :: r)
    else (0, c :: r)
  | [] => (0, [])

/-- Scale a rational by an integer power of ten. -/
def scalePow10 (q : ℚ) (e : ℤ) : ℚ :=
  q * (10 : ℚ) ^ e

/-- Parse the decimal body `digits [. digits] [exp]` after any sign has been
consumed.  Returns `none` when no digit occurs at all, otherwise the value
and the unconsumed characters. -/
def parseDecBody (cs : List Char) : Option (ℚ × List Char) :=
  let ip := takeDigits cs
  let intDs := ip.1
  match ip.2 with
  | '.' :: r =>
    let fp := takeDigits r
    if intDs = [] && fp.1 = [] then none
    else
      let mantissa : ℚ := (digitsVal intDs : ℚ) +
        (digitsVal fp.1 : ℚ) / (10 : ℚ) ^ fp.1.length
      let ep := parseExp fp.2
      some (scalePow10 mantissa ep.1, ep.2)
  | rest =>
    if intDs = [] then none
    else
      let ep := parseExp rest
      some (scalePow10 (digitsVal intDs : ℚ) ep.1, ep.2)

/-- Model of the JS `Number(string)` conversion for decimal notation: trims
whitespace, empty string gives 0, otherwise an optional sign followed by a
decimal body that must consume the whole string (trailing garbage gives
NaN).  Hex/binary/Infinity forms are not modelled; no theorem below depends
on them. -/
def jsStringToNumber (s : String) : JsNum :=
  let cs := ((s.toList.dropWhile jsWsChar).reverse.dropWhile jsWsChar).reverse
  match cs with
  | [] => .num 0
  | c :: r =>
    let signed : ℚ → ℚ := if c = '-' then (fun q => -q) else id
    let body := if c = '-' || c = '+' then r else c :: r
    match parseDecBody body with
    | some (q, []) => .num (signed q)
    | _ => .nan

/-- Model of JS `parseFloat` over a byte list (every byte fed to it by the
tokenizer is ASCII from the set digits, `.`, `e`, `E`, `+`, `-`): longest
valid decimal prefix, NaN when no digits are found.  An exponent marker not
followed by digits is ignored, as in JS. -/
def jsParseFloat (bytes : List ℕ) : JsNum :=
  let cs := (bytes.map Char.ofNat).dropWhile jsWsChar
  match cs with
  | [] => .nan
  | c :: r =>
    let signed : ℚ → ℚ := if c = '-' then (fun q => -q) else id
    let body := if c = '-' || c = '+' then r else c :: r
    match parseDecBody body with
    | some (q, _) => .num (signed q)
    | none => .nan

/-- Latin-1 style decoding used by the tokenizer's small-string path:
`String.fromCharCode` applied to each byte individually. -/
def latin1Decode (bytes : List ℕ) : String :=
  String.mk (bytes.map Char.ofNat)

/-- Unicode replacement character U+FFFD produced for invalid UTF-8. -/
def replChar : Char := Char.ofNat 0xFFFD

/-- Continuation byte test (0x80..0xBF). -/
def contB (b : ℕ) : Bool := 0x80 ≤ b && b ≤ 0xBF

/-- Allowed second byte after a three-byte leader (E0 needs A0..BF, ED needs
80..9F to exclude surrogates). -/
def cont3Ok (b1 b2 : ℕ) : Bool :=
  if b1 = 0xE0 then 0xA0 ≤ b2 && b2 ≤ 0xBF
  else if b1 = 0xED then 0x80 ≤ b2 && b2 ≤ 0x9F
  else contB b2

/-- Allowed second byte after a four-byte leader (F0 needs 90..BF, F4 needs
80..8F). -/
def cont4Ok (b1 b2 : ℕ) : Bool :=
  if b1 = 0xF0 then 0x90 ≤ b2 && b2 ≤ 0xBF
  else if b1 = 0xF4 then 0x80 ≤ b2 && b2 ≤ 0x8F
  else contB b2

/-- UTF-8 decoding worker with explicit fuel; each step consumes at least one
byte and one unit of fuel, so fuel equal to the list length suffices (see
`utf8Decode`).  Fuel keeps the recursion structural and kernel-evaluable. -/
def utf8Go : ℕ → List ℕ → List Char
  | 0, _ => []
  | _ + 1, [] => []
  | fuel + 1, b :: rest =>
    if b < 0x80 then Char.ofNat b :: utf8Go fuel rest
    else if 0xC2 ≤ b && b ≤ 0xDF then
      match rest with
      | b2 :: r2 =>
        if contB b2 then
          Char.ofNat ((b - 0xC0) * 64 + (b2 - 0x80)) :: utf8Go fuel r2
        else replChar :: utf8Go fuel rest
      | [] => [replChar]
    else if 0xE0 ≤ b && b ≤ 0xEF then
      match rest with
      | b2 :: r2 =>
        if cont3Ok b b2 then
          match r2 with
          | b3 :: r3 =>
            if contB b3 then
              Char.ofNat ((b - 0xE0) * 4096 + (b2 - 0x80) * 64 + (b3 - 0x80)) ::
                utf8Go fuel r3
            else replChar :: utf8Go fuel r2
          | [] => [replChar]
        else replChar :: utf8Go fuel rest
      | [] => [replChar]
    else if 0xF0 ≤ b && b ≤ 0xF4 then
      match rest with
      | b2 :: r2 =>
        if cont4Ok b b2 then
          match r2 with
          | b3 :: r3 =>
            if contB b3 then
              match r3 with
              | b4 :: r4 =>
                if contB b4 then
                  Char.ofNat ((b - 0xF0) * 262144 + (b2 - 0x80) * 4096 +
                    (b3 - 0x80) * 64 + (b4 - 0x80)) :: utf8Go fuel r4
                else replChar :: utf8Go fuel r3
              | [] => [replChar]
            else replChar :: utf8Go fuel r2
          | [] => [replChar]
        else replChar :: utf8Go fuel rest
      | [] => [replChar]
    else replChar :: utf8Go fuel rest

/-- UTF-8 decoding with U+FFFD replacement on invalid sequences, modelling
`TextDecoder('utf-8').decode` before BOM handling. -/
def utf8Decode (bytes : List ℕ) : List Char :=
  utf8Go bytes.length bytes

/-- Drop a UTF-8 byte-order mark, as `TextDecoder` does by default. -/
def stripBOM (l : List ℕ) : List ℕ :=
  match l with
  | a :: b :: c :: rest =>
    if a = 0xEF ∧ b = 0xBB ∧ c = 0xBF then rest else a :: b :: c :: rest
  | _ => l

/-- Full model of `TextDecoder('utf-8').decode` on a byte list. -/
def utf8TextDecode (bytes : List ℕ) : String :=
  String.mk (utf8Decode (stripBOM bytes))

/-- Token kinds, from `enum TokenType`. -/
inductive TokenType where
  | leftBrace | rightBrace | leftBracket | rightBracket | colon | comma
  | string | number | tTrue | tFalse | tNull | eof
deriving DecidableEq, Repr

/-- Decoded payload carried by STRING and NUMBER tokens. -/
inductive TokenValue where
  | str (s : String)
  | num (n : JsNum)
deriving DecidableEq, Repr

/-- Token record; `stop` embeds the `end` field (a Lean keyword). -/
structure Token where
  type : TokenType
  start : ℕ
  stop : ℕ
  value : Option TokenValue
deriving DecidableEq, Repr

/-- Tokenizer FSM phase (the `state` field). -/
inductive Phase where
  | idle | inString | inEscape | inNumber | inLiteral
deriving DecidableEq, Repr

/-- Capacity of the preallocated accumulator (`new Uint8Array(65536)`).
Writes beyond it are silently discarded by JS typed arrays while the offset
keeps incrementing; the model stores exactly the retained prefix. -/
def bufCap : ℕ := 65536

/-- Tokenizer state: FSM phase, accumulator contents and logical offset,
literal target, stream position, and the current token's start position.
`TokenizationError` carries a message and a position; the message text is
not modelled, only the position. -/
structure TokState where
  phase : Phase
  buf : List ℕ
  bufferOffset : ℕ
  literalTarget : String
  literalType : TokenType
  pos : ℕ
  startPos : ℕ
deriving DecidableEq, Repr

/-- Position payload of a thrown `TokenizationError`. -/
structure TokErr where
  pos : ℕ
deriving DecidableEq, Repr

/-- Fresh tokenizer (constructor defaults / after `reset()`). -/
def initTok : TokState :=
  { phase := .idle, buf := [], bufferOffset := 0, literalTarget := ""
    literalType := .tNull, pos := 0, startPos := 0 }

/-- Append one byte to the accumulator (`this.buffer[this.bufferOffset++] = byte`
with the 64 KiB capacity of the underlying typed array). -/
def pushBuf (s : TokState) (b : ℕ) : TokState :=
  { s with buf := if s.buf.length < bufCap then s.buf ++ [b] else s.buf,
           bufferOffset := s.bufferOffset + 1 }

/-- Decode accumulator contents of logical length `len` (`decodeBuffer`):
empty gives "", short strings use per-byte `String.fromCharCode` (the
intern-cache key, returned as the value), longer ones a UTF-8 decode. -/
def decodeBufferAux (len : ℕ) (bytes : List ℕ) : String :=
  if len = 0 then ""
  else if len < 32 then latin1Decode bytes
  else utf8TextDecode bytes

/-- Decode the current accumulator of a tokenizer state. -/
def decodeBuffer (s : TokState) : String :=
  decodeBufferAux s.bufferOffset s.buf

/-- ASCII digit byte test. -/
def isDigitByte (b : ℕ) : Bool := 48 ≤ b && b ≤ 57

/-- Bytes that continue a NUMBER token: digits, `.`, `e`, `E`, `-`, `+`. -/
def isNumByte (b : ℕ) : Bool :=
  isDigitByte b || b = 46 || b = 101 || b = 69 || b = 45 || b = 43

/-- Model of `parseNumber`: the integer fast path accumulates digit bytes;
any non-digit (including offsets beyond the 64 KiB store, which read as
`undefined` in JS) falls back to `parseFloat` over the decoded store. -/
def parseNumberModel (s : TokState) : JsNum :=
  if s.bufferOffset = s.buf.length && s.buf.all isDigitByte then
    .num ((digitsVal (s.buf.map (fun b => b - 48)) : ℕ) : ℚ)
  else jsParseFloat s.buf

/-- Build a token record. -/
def mkTok (ty : TokenType) (start stop : ℕ) (v : Option TokenValue := none) :
    Token :=
  { type := ty, start := start, stop := stop, value := v }

/-- Enter LITERAL state (`startLiteral`). -/
def startLit (s : TokState) (target : String) (ty : TokenType) (b : ℕ) :
    TokState :=
  { s with phase := .inLiteral, literalTarget := target, literalType := ty,
           buf := [b], bufferOffset := 1, startPos := s.pos, pos := s.pos + 1 }

/-- Handle one byte in the IDLE state.  `s.pos` is the position of `b`;
afterwards `pos` has advanced past it.  Unknown bytes are ignored
(permissive garbage tolerance). -/
def idleHandle (s : TokState) (b : ℕ) : TokState × List Token :=
  let cur := s.pos
  let s1 : TokState := { s with pos := cur + 1 }
  if b = 123 then (s1, [mkTok .leftBrace cur (cur + 1)])
  else if b = 125 then (s1, [mkTok .rightBrace cur (cur + 1)])
  else if b = 91 then (s1, [mkTok .leftBracket cur (cur + 1)])
  else if b = 93 then (s1, [mkTok .rightBracket cur (cur + 1)])
  else if b = 58 then (s1, [mkTok .colon cur (cur + 1)])
  else if b = 44 then (s1, [mkTok .comma cur (cur + 1)])
  else if b = 34 then
    ({ s1 with phase := .inString, buf := [], bufferOffset := 0,
               startPos := cur }, [])
  else if b = 116 then (startLit s "true" .tTrue b, [])
  else if b = 102 then (startLit s "false" .tFalse b, [])
  else if b = 110 then (startLit s "null" .tNull b, [])
  else if b = 32 || b = 9 || b = 10 || b = 13 then (s1, [])
  else if isDigitByte b || b = 45 then
    ({ s1 with phase := .inNumber, buf := [b], bufferOffset := 1,
               startPos := cur }, [])
  else (s1, [])

/-- One byte of `processChunk`.  A NUMBER terminator emits the number and is
then re-examined in IDLE within the same step (the `i--; this.pos--` replay
in the source).  The only error is the literal mismatch. -/
def tokStep (s : TokState) (b : ℕ) : Except TokErr (TokState × List Token) :=
  match s.phase with
  | .idle => .ok (idleHandle s b)
  | .inString =>
    if b = 34 then
      .ok ({ s with phase := .idle, pos := s.pos + 1 },
        [mkTok .string s.startPos (s.pos + 1) (some (.str (decodeBuffer s)))])
    else if b = 92 then
      .ok ({ s with phase := .inEscape, pos := s.pos + 1 }, [])
    else .ok ({ pushBuf s b with pos := s.pos + 1 }, [])
  | .inEscape =>
    .ok ({ pushBuf s b with phase := .inString, pos := s.pos + 1 }, [])
  | .inNumber =>
    if isNumByte b then .ok ({ pushBuf s b with pos := s.pos + 1 }, [])
    else
      let tok := mkTok .number s.startPos s.pos (some (.num (parseNumberModel s)))
      let r := idleHandle { s with phase := .idle } b
      .ok (r.1, tok :: r.2)
  | .inLiteral =>
    let s1 := pushBuf s b
    if s1.bufferOffset = s.literalTarget.length then
      if decodeBuffer s1 = s.literalTarget then
        .ok ({ s1 with phase := .idle, pos := s.pos + 1 },
          [mkTok s.literalType s.startPos (s.pos + 1)])
      else .error ⟨s.startPos⟩
    else .ok ({ s1 with pos := s.pos + 1 }, [])

/-- Run the tokenizer over a byte list, collecting tokens in order and
stopping at the first error (`processChunk`'s loop; also the body shared by
the `tokenize` iterator). -/
def tokRun (s : TokState) : List ℕ → TokState × List Token × Option TokErr
  | [] => (s, [], none)
  | b :: rest =>
    match tokStep s b with
    | .error e => (s, [], some e)
    | .ok (s1, ts) =>
      let r := tokRun s1 rest
      (r.1, ts ++ r.2.1, r.2.2)

/-- Continue a tokenizer outcome with a further chunk: a second
`processChunk` call happens only when the first did not throw, and the token
sequences are concatenated. -/
def tokSeq (r1 : TokState × List Token × Option TokErr) (c2 : List ℕ) :
    TokState × List Token × Option TokErr :=
  match r1.2.2 with
  | some _ => r1
  | none =>
    let r2 := tokRun r1.1 c2
    (r2.1, r1.2.1 ++ r2.2.1, r2.2.2)

/-- Feed two successive chunks through one tokenizer. -/
def feedTwice (s : TokState) (c1 c2 : List ℕ) :
    TokState × List Token × Option TokErr :=
  tokSeq (tokRun s c1) c2

/-- Byte list of an ASCII Lean string (used for concrete inputs). -/
def strBytes (s : String) : List ℕ :=
  s.toList.map Char.toNat

/-- Insertion-ordered key update, modelling both `Map.prototype.set` and a JS
object property assignment: an existing key keeps its position, a new key is
appended. -/
def setKey {α : Type} : List (String × α) → String → α → List (String × α)
  | [], k, v => [(k, v)]
  | (k0, v0) :: rest, k, v =>
    if k0 = k then (k0, v) :: rest else (k0, v0) :: setKey rest k v

/-- Key-presence test (the JS `in` operator / `Map.has`). -/
def hasKey {α : Type} (l : List (String × α)) (k : String) : Bool :=
  l.any (fun p => p.1 = k)

/-- String payload of a token, modelling the `token.value as string` cast
(STRING tokens always carry a string value). -/
def tokenStr (t : Token) : String :=
  match t.value with
  | some (.str s) => s
  | _ => ""

/-- Loop body of `buildRootIndex`: depth tracking, the depth-1 key/colon
protocol, and the early break once the root closes with a nonempty index.
Depth is an integer, as in JS. -/
def rootIndexFold : ℤ → Option String → List (String × ℕ) → List Token →
    List (String × ℕ)
  | _, _, idx, [] => idx
  | depth, ck, idx, t :: ts =>
    if t.type = .leftBrace ∨ t.type = .leftBracket then
      rootIndexFold (depth + 1) ck idx ts
    else if t.type = .rightBrace ∨ t.type = .rightBracket then
      if depth - 1 = 0 ∧ idx ≠ [] then idx
      else rootIndexFold (depth - 1) ck idx ts
    else if depth = 1 ∧ t.type = .string ∧ ck = none then
      rootIndexFold depth (some (tokenStr t)) idx ts
    else if depth = 1 ∧ t.type = .colon ∧ ck ≠ none then
      rootIndexFold depth none (setKey idx (ck.getD "") t.start) ts
    else rootIndexFold depth ck idx ts

/-- Model of `buildRootIndex(buffer)`.  The source iterates the lazy
`tokenize` generator; the model tokenizes the whole buffer and folds with
the same early-break condition, which agrees with the source whenever the
buffer tokenizes without error (true for every input considered here; a
thrown `TokenizationError` would propagate out of `buildRootIndex`). -/
def buildRootIndex (buffer : List ℕ) : List (String × ℕ) :=
  rootIndexFold 0 none [] (tokRun initTok buffer).2.1

/-- Error outcome of a single tokenizer step, if any. -/
def stepError (s : TokState) (b : ℕ) : Option TokErr :=
  match tokStep s b with
  | .error e => some e
  | .ok _ => none

/-- Untyped JS value as handled by the engine. -/
inductive Value where
  | undef
  | vnull
  | vbool (b : Bool)
  | vnum (q : ℚ)
  | vnan
  | vstr (s : String)
  | varr (elems : List Value)
  | vobj (fields : List (String × Value))

/-- JS number-to-string for the values reached here: exact decimal digits for
integers (JS switches to exponential notation only beyond 1e21, far outside
any value in this development); non-integral rationals are rendered through
Lean's `Rat` representation, a stand-in no theorem below depends on. -/
def jsNumToString (q : ℚ) : String :=
  if q.den = 1 then toString q.num else toString q

/-- Model of JS `String(v)` for the values directives can receive.  Directive
inputs are always primitive (the engine applies directives only to scalar
token values, missing-key placeholders and their transforms), so the array
case (JS would join the elements) never arises. -/
def jsToString : Value → String
  | .undef => "undefined"
  | .vnull => "null"
  | .vbool b => if b then "true" else "false"
  | .vnum q => jsNumToString q
  | .vnan => "NaN"
  | .vstr s => s
  | .varr _ => ""
  | .vobj _ => "[object Object]"

/-- Model of JS `Number(v)`.  As with `jsToString`, non-primitive inputs
cannot reach this conversion through the directive registry. -/
def jsNumberOf : Value → Value
  | .undef => .vnan
  | .vnull => .vnum 0
  | .vbool b => .vnum (if b then 1 else 0)
  | .vnum q => .vnum q
  | .vnan => .vnan
  | .vstr s =>
    match jsStringToNumber s with
    | .num q => .vnum q
    | .nan => .vnan
  | .varr _ => .vnan
  | .vobj _ => .vnan

/-- Parsed directive argument value. -/
inductive AVal where
  | str (s : String)
  | num (q : ℚ)
  | bool (b : Bool)
deriving DecidableEq, Repr

/-- Directive reference: name plus argument object. -/
structure DirectiveInfo where
  name : String
  args : List (String × AVal)
deriving DecidableEq, Repr

/-- Embed an optional argument value as a JS value (missing argument is
`undefined`). -/
def avalToValue : Option AVal → Value
  | none => .undef
  | some (.str s) => .vstr s
  | some (.num q) => .vnum q
  | some (.bool b) => .vbool b

/-- JS truthiness of an argument value. -/
def avalTruthy : AVal → Bool
  | .str s => !(s == "")
  | .num q => !(q == 0)
  | .bool b => b

/-- JS numeric coercion of an argument value. -/
def avalToNum : AVal → JsNum
  | .str s => jsStringToNumber s
  | .num q => .num q
  | .bool b => .num (if b then 1 else 0)

/-- The fraction-digit count used by `formatNumber`:
`Math.min(Math.max(0, args.dec || 2), 20)` followed by `toFixed`'s integer
truncation (NaN truncates to 0). -/
def decDigits (dec : Option AVal) : ℕ :=
  let raw : JsNum :=
    match dec with
    | none => .num 2
    | some a => if avalTruthy a then avalToNum a else .num 2
  match raw with
  | .nan => 0
  | .num q => ⌊max 0 (min q 20)⌋.toNat

/-- Clamp a substring bound into `[0, len]` with `ToInteger` truncation
(NaN becomes 0), as `String.prototype.substring` does. -/
def substringClamp (len : ℕ) (x : JsNum) : ℕ :=
  match x with
  | .nan => 0
  | .num q => if q ≤ 0 then 0 else if (len : ℚ) ≤ q then len else ⌊q⌋.toNat

/-- The `substring(start: S, len: L)` directive body: string positions are
measured in characters (identifying JS UTF-16 units with scalar values, which
agree on every string in this development). -/
def jsSubstringDir (v : Value) (startArg lenArg : Option AVal) : Value :=
  match v with
  | .vstr s =>
    let startN : JsNum :=
      match startArg with
      | none => .num 0
      | some a => if avalTruthy a then avalToNum a else .num 0
    let startM : JsNum :=
      match startN with
      | .nan => .nan
      | .num q => .num (max 0 q)
    let lenN : JsNum :=
      match lenArg with
      | none => .num (s.length : ℚ)
      | some a => if avalTruthy a then avalToNum a else .num (s.length : ℚ)
    let lenM : JsNum :=
      match lenN with
      | .nan => .nan
      | .num q => .num (min q 10000)
    let sumN : JsNum :=
      match startM, lenM with
      | .num x, .num y => .num (x + y)
      | _, _ => .nan
    let a := substringClamp s.length startM
    let b := substringClamp s.length sumN
    let lo := min a b
    let hi := max a b
    .vstr (String.mk ((s.toList.drop lo).take (hi - lo)))
  | _ => v

/-- Model of `DirectiveRegistry.execute`: the five registered transforms,
identity for unknown names (registry miss). -/
def directiveExecute (name : String) (v : Value) (args : List (String × AVal)) :
    Value :=
  match name with
  | "alias" => v
  | "coerce" =>
    if args.lookup "type" = some (.str "number") then jsNumberOf v
    else if args.lookup "type" = some (.str "string") then .vstr (jsToString v)
    else v
  | "default" =>
    match v with
    | .vnull => avalToValue (args.lookup "value")
    | .undef => avalToValue (args.lookup "value")
    | _ => v
  | "formatNumber" =>
    match v with
    | .vnum q => .vnum (roundToDec q (decDigits (args.lookup "dec")))
    | .vnan => .vnan
    | _ => v
  | "substring" => jsSubstringDir v (args.lookup "start") (args.lookup "len")
  | _ => v

/-- Left-to-right directive chain application (`Engine.applyDirectives`);
an absent list is the identity. -/
def applyDirectives (v : Value) (ds : Option (List DirectiveInfo)) : Value :=
  match ds with
  | none => v
  | some l => l.foldl (fun acc d => directiveExecute d.name acc d.args) v

/-- Selection entry: `pass` is the literal `true`. -/
inductive Config where
  | pass
  | node (aliasName : Option String) (selection : Option (List (String × Config)))
      (directives : Option (List DirectiveInfo))

/-- A selection map: ordered key/config pairs. -/
abbrev SelMap := List (String × Config)

/-- Normalized selection record, the shape held on the engine's selection
stack (`typeof config === 'boolean' ? \x7b selection: \x7b\x7d \x7d : config`). -/
structure Node where
  aliasName : Option String
  selection : Option SelMap
  directives : Option (List DirectiveInfo)

/-- Normalize a config to a record. -/
def normalize : Config → Node
  | .pass => ⟨none, some [], none⟩
  | .node a sel d => ⟨a, sel, d⟩

/-- The `alias` property of a raw config (`undefined` on boolean `true`). -/
def aliasOf : Config → Option String
  | .pass => none
  | .node a _ _ => a

/-- The `directives` property of a raw config. -/
def directivesOf : Config → Option (List DirectiveInfo)
  | .pass => none
  | .node _ _ d => d

/-- JS `a || k` for an optional alias string: empty and missing both fall
back to the key. -/
def jsOr (a : Option String) (k : String) : String :=
  match a with
  | some s => if s = "" then k else s
  | none => k

/-- The missing-key default pass executed at structure end (`onStructureEnd`
lines 286-298): for each selection entry in order, if the resolved output
key is absent and the entry has a directive list, run the chain on
`undefined` and insert the result when it is defined. -/
def applyMissingDefaults : SelMap → List (String × Value) → List (String × Value)
  | [], res => res
  | kv :: rest, res =>
    let tk := jsOr (aliasOf kv.2) kv.1
    let res1 :=
      if hasKey res tk then res
      else
        match directivesOf kv.2 with
        | none => res
        | some ds =>
          match applyDirectives .undef (some ds) with
          | .undef => res
          | dv => setKey res tk dv
    applyMissingDefaults rest res1

/-- Entry of the selection stack: a normalized record, the literal `false`
pushed when entering skip mode, or `undefined` (only reachable after the
root frame has been popped by unbalanced input). -/
inductive SelVal where
  | node (n : Node)
  | fls
  | undefV

/-- Which call site of `sink.onMatch` produced an emission. -/
inductive ESite where
  | rootObject
  | arrayItem
  | leafValue
deriving DecidableEq, Repr

/-- One recorded `sink.onMatch` call. -/
structure Emission where
  site : ESite
  val : Value

/-- Budget limits (`options.budget`); a field set to 0 behaves like an absent
field, since both are falsy in the source's checks. -/
structure BudgetLimits where
  maxMatches : ℕ
  maxBytes : ℕ
  maxDurationMs : ℕ
deriving DecidableEq, Repr

/-- Which limit a `BudgetExhaustedError` reports. -/
inductive BudgetKind where
  | matches
  | bytes
  | duration
deriving DecidableEq, Repr

/-- Errors the engine can throw while handling tokens. -/
inductive EngErr where
  | structuralMismatch
  | typeError
  | budget (k : BudgetKind)
deriving DecidableEq, Repr

/-- Model of `Engine.enforceBudget`: with no budget object nothing is
checked; otherwise each nonzero limit is checked strictly from above, in
the source's order. -/
def enforceBudget (b : Option BudgetLimits) (matched processedBytes elapsedMs : ℕ) :
    Option BudgetKind :=
  match b with
  | none => none
  | some lim =>
    if lim.maxMatches ≠ 0 ∧ lim.maxMatches < matched then some .matches
    else if lim.maxBytes ≠ 0 ∧ lim.maxBytes < processedBytes then some .bytes
    else if lim.maxDurationMs ≠ 0 ∧ lim.maxDurationMs < elapsedMs then some .duration
    else none

/-- Engine token input.  NUMBER tokens carry their decoded numeric value;
TRUE/FALSE/NULL carry their value intrinsically (`getLiteralValue`). -/
inductive Tok where
  | lbrace
  | rbrace
  | lbracket
  | rbracket
  | colon
  | comma
  | str (s : String)
  | num (n : JsNum)
  | tru
  | fls
  | nul
deriving DecidableEq, Repr

/-- Engine execution state: the four parallel stacks (head is the top), the
pending key, the skip depth, the match counter, the recorded `onMatch`
calls, and `finalResult`. -/
structure EngState where
  selStack : List SelVal
  resStack : List Value
  keyStack : List (Option String)
  arrStack : List Bool
  curKey : Option String
  skipDepth : ℕ
  matched : ℕ
  emissions : List Emission
  finalResult : Option Value

/-- Constructor state: the selection stack holds the root record
`\x7b selection: initialSelection \x7d`, everything else is empty. -/
def initEng (m : SelMap) : EngState :=
  { selStack := [.node ⟨none, some m, none⟩], resStack := [], keyStack := [],
    arrStack := [], curKey := none, skipDepth := 0, matched := 0,
    emissions := [], finalResult := none }

/-- Top of the kind stack (`this.isArrayStack[length - 1] || false`). -/
def isArrayTop (s : EngState) : Bool :=
  s.arrStack.headD false

/-- Key-position test (`expectingKey`): not in an array and no pending key
(strict `=== null` comparison, so an empty-string key still counts as
pending). -/
def expectingKey (s : EngState) : Bool :=
  !isArrayTop s && s.curKey.isNone

/-- JS truthiness of the pending key (`this.currentKey && ...`): both `null`
and the empty string are falsy. -/
def jsKeyTruthy : Option String → Bool
  | some k => !(k == "")
  | none => false

/-- The bottom of the kind stack (`this.isArrayStack[0]`, falsy when the
stack is empty). -/
def bottomIsArray (l : List Bool) : Bool :=
  l.getLastD false

/-- The guarded lookup `this.currentKey && parent && parent.selection &&
parent.selection[this.currentKey]`: `some cfg` means the chain is truthy. -/
def selLookup (parent : SelVal) (ck : Option String) : Option Config :=
  if jsKeyTruthy ck then
    match parent with
    | .node n =>
      match n.selection with
      | some m => m.lookup (ck.getD "")
      | none => none
    | _ => none
  else none

/-- Model of `Engine.onStructureStart`.  The three branches: root (stacks
empty), array parent (selection inherited, no skip), object parent (pending
key looked up; a miss or falsy key enters skip mode with a `false` frame).
The source attaches the fresh container into its parent here; the model
records the output key and attaches on pop (see the header note). -/
def onStructureStart (s : EngState) (isArray : Bool) : Except EngErr EngState :=
  let parent := s.selStack.headD .undefV
  let fresh : Value := if isArray then .varr [] else .vobj []
  if s.arrStack.isEmpty then
    .ok { s with
      resStack := fresh :: s.resStack,
      selStack := parent :: s.selStack,
      arrStack := isArray :: s.arrStack,
      keyStack := s.curKey :: s.keyStack,
      curKey := none }
  else if isArrayTop s then
    match s.resStack.headD .undef with
    | Value.varr _ =>
      .ok { s with
        resStack := fresh :: s.resStack,
        selStack := parent :: s.selStack,
        arrStack := isArray :: s.arrStack,
        keyStack := s.curKey :: s.keyStack,
        curKey := none }
    | _ => .error .structuralMismatch
  else
    match selLookup parent s.curKey with
    | some cfg =>
      let cs := normalize cfg
      let tk := jsOr cs.aliasName (s.curKey.getD "")
      match s.resStack.headD .undef with
      | Value.vobj _ =>
        .ok { s with
          resStack := fresh :: s.resStack,
          selStack := .node cs :: s.selStack,
          arrStack := isArray :: s.arrStack,
          keyStack := some tk :: s.keyStack,
          curKey := none }
      | _ => .error .structuralMismatch
    | none =>
      .ok { s with
        skipDepth := 1,
        selStack := .fls :: s.selStack,
        arrStack := isArray :: s.arrStack,
        keyStack := s.curKey :: s.keyStack,
        curKey := none }

/-- The `matchedCount++; this.enforceBudget()` idiom at the three emission
sites: the counter has already been bumped to `m1`; a violated limit throws
before the sink is invoked, otherwise the prepared state is returned. -/
def budgetCheck (b : Option BudgetLimits) (elapsed m1 : ℕ) (k : EngState) :
    Except EngErr EngState :=
  match enforceBudget b m1 0 elapsed with
  | some kind => .error (.budget kind)
  | none => .ok k

/-- Shared tail of `onStructureEnd` after the defaults pass: pop the four
stacks, attach the completed container into its parent, and apply the
emission rules (root object, root array, root-array element, inner). -/
def structEndEmit (s : EngState) (b : Option BudgetLimits) (elapsed : ℕ)
    (selRest : List SelVal) (arrRest : List Bool) (wasArray : Bool)
    (res1 : List Value) : Except EngErr EngState :=
  if res1.length = 1 ∧ arrRest.isEmpty ∧ wasArray = false then
    let item := res1.headD .undef
    budgetCheck b elapsed (s.matched + 1)
      { s with
        selStack := selRest, arrStack := arrRest,
        keyStack := s.keyStack.tail, curKey := none,
        resStack := res1.tail, matched := s.matched + 1,
        finalResult := some item,
        emissions := s.emissions ++ [⟨.rootObject, item⟩] }
  else if res1.length = 1 ∧ arrRest.isEmpty ∧ wasArray = true then
    .ok { s with
      selStack := selRest, arrStack := arrRest,
      keyStack := s.keyStack.tail, curKey := none,
      resStack := res1.tail,
      finalResult := some (res1.headD .undef) }
  else
    match res1 with
    | child :: parentC :: rest =>
      let attached : Value :=
        match s.keyStack.headD none with
        | some k =>
          match parentC with
          | Value.vobj fs => Value.vobj (setKey fs k child)
          | other => other
        | none =>
          match parentC with
          | Value.varr es => Value.varr (es ++ [child])
          | other => other
      let res2 := attached :: rest
      if rest.isEmpty ∧ bottomIsArray arrRest then
        budgetCheck b elapsed (s.matched + 1)
          { s with
            selStack := selRest, arrStack := arrRest,
            keyStack := s.keyStack.tail, curKey := none,
            resStack := res2, matched := s.matched + 1,
            emissions := s.emissions ++ [⟨.arrayItem, child⟩] }
      else
        .ok { s with
          selStack := selRest, arrStack := arrRest,
          keyStack := s.keyStack.tail, curKey := none, resStack := res2 }
    | _ =>
      .ok { s with
        selStack := selRest, arrStack := arrRest,
        keyStack := s.keyStack.tail, curKey := none, resStack := res1 }

/-- Model of `Engine.onStructureEnd`: pop the selection and kind stacks,
run the missing-key defaults pass when the popped selection is a record
with a selection map and the parent (after the pop) is not an array, then
emit per the position rules.  A `false` frame (skip exit) only pops; an
`undefined` pop short-circuits on an array parent and otherwise raises the
`TypeError` of `undefined.selection`. -/
def onStructureEnd (s : EngState) (b : Option BudgetLimits) (elapsed : ℕ) :
    Except EngErr EngState :=
  let sel := s.selStack.headD .undefV
  let selRest := s.selStack.tail
  let wasArray := s.arrStack.headD false
  let arrRest := s.arrStack.tail
  let postArrTop := arrRest.headD false
  match sel with
  | .fls =>
    .ok { s with
      selStack := selRest, arrStack := arrRest,
      keyStack := s.keyStack.tail, curKey := none }
  | .undefV =>
    if postArrTop then structEndEmit s b elapsed selRest arrRest wasArray s.resStack
    else .error .typeError
  | .node n =>
    let res1 : List Value :=
      if postArrTop = false ∧ n.selection.isSome then
        match s.resStack with
        | Value.vobj fs :: rest =>
          Value.vobj (applyMissingDefaults (n.selection.getD []) fs) :: rest
        | other => other
      else s.resStack
    structEndEmit s b elapsed selRest arrRest wasArray res1

/-- Model of `Engine.onValue`: array elements are appended when the
inherited selection permits them; object values are assigned under the
resolved output key when the pending key is selected, emitting at depth 1;
anything else is discarded.  The pending key is always cleared. -/
def onValue (s : EngState) (v : Value) (b : Option BudgetLimits) (elapsed : ℕ) :
    Except EngErr EngState :=
  let parent := s.selStack.headD .undefV
  if isArrayTop s then
    match s.resStack with
    | Value.varr es :: rest =>
      match parent with
      | .undefV => .error .typeError
      | .fls => .ok { s with curKey := none }
      | .node n =>
        if n.selection.isSome || n.directives.isSome then
          .ok { s with
            resStack := Value.varr (es ++ [applyDirectives v n.directives]) :: rest,
            curKey := none }
        else .ok { s with curKey := none }
    | _ => .error .structuralMismatch
  else if jsKeyTruthy s.curKey then
    match parent with
    | .undefV => .error .typeError
    | .fls => .ok { s with curKey := none }
    | .node n =>
      match n.selection with
      | none => .ok { s with curKey := none }
      | some m =>
        match m.lookup (s.curKey.getD "") with
        | none => .ok { s with curKey := none }
        | some cfg =>
          match s.resStack with
          | Value.vobj fs :: rest =>
            let tk := jsOr (aliasOf cfg) (s.curKey.getD "")
            let fv := applyDirectives v (directivesOf cfg)
            let res2 := Value.vobj (setKey fs tk fv) :: rest
            if rest.isEmpty then
              budgetCheck b elapsed (s.matched + 1)
                { s with
                  resStack := res2, matched := s.matched + 1, curKey := none,
                  emissions := s.emissions ++ [⟨.leafValue, fv⟩] }
            else .ok { s with resStack := res2, curKey := none }
          | _ => .error .structuralMismatch
    else .ok { s with curKey := none }

/-- Model of `Engine.handleToken`: the skip sub-machine when skipDepth > 0
(brace counting only; reaching 0 fires the structure end), otherwise the
token dispatch.  COLON and COMMA have no case and change nothing. -/
def engStep (b : Option BudgetLimits) (elapsed : ℕ) (s : EngState) (t : Tok) :
    Except EngErr EngState :=
  if s.skipDepth ≠ 0 then
    match t with
    | .lbrace => .ok { s with skipDepth := s.skipDepth + 1 }
    | .lbracket => .ok { s with skipDepth := s.skipDepth + 1 }
    | .rbrace =>
      if s.skipDepth = 1 then onStructureEnd { s with skipDepth := 0 } b elapsed
      else .ok { s with skipDepth := s.skipDepth - 1 }
    | .rbracket =>
      if s.skipDepth = 1 then onStructureEnd { s with skipDepth := 0 } b elapsed
      else .ok { s with skipDepth := s.skipDepth - 1 }
    | _ => .ok s
  else
    match t with
    | .lbrace => onStructureStart s false
    | .rbrace => onStructureEnd s b elapsed
    | .lbracket => onStructureStart s true
    | .rbracket => onStructureEnd s b elapsed
    | .colon => .ok s
    | .comma => .ok s
    | .str str =>
      if expectingKey s then .ok { s with curKey := some str }
      else onValue s (.vstr str) b elapsed
    | .num n =>
      onValue s (match n with | .num q => Value.vnum q | .nan => Value.vnan) b elapsed
    | .tru => onValue s (.vbool true) b elapsed
    | .fls => onValue s (.vbool false) b elapsed
    | .nul => onValue s .vnull b elapsed

/-- Run the engine over a token list, stopping at the first thrown error and
returning the state as it was before the failing token (no emission ever
precedes a throw inside a single `handleToken`). -/
def runEng (b : Option BudgetLimits) (elapsed : ℕ) (s : EngState) :
    List Tok → EngState × Option EngErr
  | [] => (s, none)
  | t :: ts =>
    match engStep b elapsed s t with
    | .error e => (s, some e)
    | .ok s1 => runEng b elapsed s1 ts

/-- Model of `Engine.getResult`: `finalResult` when set, else the bottom of
the result stack (`resultStack[0]`). -/
def getResult (s : EngState) : Value :=
  match s.finalResult with
  | some v => v
  | none => s.resStack.getLastD Value.undef

/-- The JS `typeof v === 'number'` test. -/
def isNumberV : Value → Bool
  | .vnum _ => true
  | .vnan => true
  | _ => false

/-- Modelled from the spec: the directive table row
`formatNumber(dec: N) — number — round to clamp(N, 0, 20) fractional
digits`. -/
def formatNumberSpec (v : Value) (N : ℤ) : Value :=
  match v with
  | .vnum q => .vnum (roundToDec q (max 0 (min N 20)).toNat)
  | _ => v

/-- Stack-shape invariant the engine actually maintains: kind and key stacks
share their length, the selection stack is one longer (it keeps the root
record pushed by the constructor), and the result stack matches the kind
stack except while a skip frame is active, when it is one shorter. -/
def StackInv (s : EngState) : Prop :=
  s.keyStack.length = s.arrStack.length ∧
  s.selStack.length = s.arrStack.length + 1 ∧
  s.resStack.length + (if s.skipDepth = 0 then 0 else 1) = s.arrStack.length

/-- Proof strengthening of `StackInv`: the `false` selection frame exists
exactly while skipDepth is positive, and then sits on top. -/
def InvAux (s : EngState) : Prop :=
  StackInv s ∧
  (if s.skipDepth = 0 then SelVal.fls ∉ s.selStack
   else ∃ tl, s.selStack = SelVal.fls :: tl ∧ SelVal.fls ∉ tl)

/-- Structure-opening tokens. -/
def isOpenTok : Tok → Bool
  | .lbrace => true
  | .lbracket => true
  | _ => false

/-- Structure-closing tokens. -/
def isCloseTok : Tok → Bool
  | .rbrace => true
  | .rbracket => true
  | _ => false

/-- Total structural depth of the engine: stack frames plus the extra skip
levels that have no frame of their own. -/
def engDepth (s : EngState) : ℕ :=
  s.arrStack.length + (if s.skipDepth = 0 then 0 else s.skipDepth - 1)

/-- A token list is balanced from starting depth `d` when no close token
arrives at depth 0 (prefix balance; the whole list need not close). -/
def balFrom : ℕ → List Tok → Bool
  | _, [] => true
  | d, t :: ts =>
    if isOpenTok t then balFrom (d + 1) ts
    else if isCloseTok t then decide (d ≠ 0) && balFrom (d - 1) ts
    else balFrom d ts

mutual
/-- A JSON value, used to quantify over whole inputs. -/
inductive Json where
  | str (s : String)
  | num (q : ℚ)
  | bool (b : Bool)
  | null
  | arr (elems : JArr)
  | obj (fields : JObj)
/-- A list of JSON array elements. -/
inductive JArr where
  | nil
  | cons (hd : Json) (tl : JArr)
/-- A list of JSON object fields. -/
inductive JObj where
  | nil
  | cons (k : String) (v : Json) (tl : JObj)
end

mutual
/-- The engine-level token stream of a JSON value, exactly as the tokenizer
delivers it (commas and colons included). -/
def tokensOf : Json → List Tok
  | .str s0 => [Tok.str s0]
  | .num q => [Tok.num (JsNum.num q)]
  | .bool true => [Tok.tru]
  | .bool false => [Tok.fls]
  | .null => [Tok.nul]
  | .arr es => Tok.lbracket :: (arrToks es ++ [Tok.rbracket])
  | .obj fs => Tok.lbrace :: (objToks fs ++ [Tok.rbrace])
/-- Tokens of an array body. -/
def arrToks : JArr → List Tok
  | .nil => []
  | .cons v tl => tokensOf v ++ arrRestToks tl
/-- Tokens of an array body continuation (leading comma). -/
def arrRestToks : JArr → List Tok
  | .nil => []
  | .cons v tl => Tok.comma :: (tokensOf v ++ arrRestToks tl)
/-- Tokens of an object body. -/
def objToks : JObj → List Tok
  | .nil => []
  | .cons k v tl => Tok.str k :: Tok.colon :: (tokensOf v ++ objRestToks tl)
/-- Tokens of an object body continuation (leading comma). -/
def objRestToks : JObj → List Tok
  | .nil => []
  | .cons k v tl =>
    Tok.comma :: Tok.str k :: Tok.colon :: (tokensOf v ++ objRestToks tl)
end

/-- Processing a concatenation of byte lists equals processing them in
sequence from the carried-over state, with token lists concatenated and the
first error (if any) stopping the run. -/
theorem tokRun_append (l1 l2 : List ℕ) (s : TokState) :
    tokRun s (l1 ++ l2) = tokSeq (tokRun s l1) l2 := by
  induction l1 generalizing s with
  | nil => simp [tokRun, tokSeq]
  | cons b rest ih =>
    simp only [List.cons_append, tokRun]
    cases h : tokStep s b with
    | error e => simp [tokSeq]
    | ok p =>
      obtain ⟨s1, ts⟩ := p
      simp only [List.append_eq]
      rw [ih s1]
      cases h2 : (tokRun s1 rest).2.2 with
      | none => simp [tokSeq, h2, List.append_assoc]
      | some e => simp [tokSeq, h2]

/-- C5: for every byte sequence and split position, feeding the two pieces
through one tokenizer via successive processChunk calls yields exactly the
same tokens (kinds, decoded values, offsets), final state and error as
feeding the whole sequence at once; in particular a token straddling the
split is emitted once with its original offsets. -/
theorem c5_chunk_split_equivalence (B : List ℕ) (p : ℕ) :
    feedTwice initTok (B.take p) (B.drop p) = tokRun initTok B := by
  rw [feedTwice, ← tokRun_append, List.take_append_drop]

/-- C6: a tokenizer step throws TokenizationError exactly when an open
literal reaches the target length of `true`/`false`/`null` with contents
differing from the target, and the recorded position is the literal's start
offset; concretely, input `truX` fails at position 0, the offset of the
`t`. -/
theorem c6_literal_error :
    (∀ s b, stepError s b =
      (if s.phase = .inLiteral ∧
          (pushBuf s b).bufferOffset = s.literalTarget.length ∧
          decodeBuffer (pushBuf s b) ≠ s.literalTarget
       then some ⟨s.startPos⟩ else none)) ∧
    (tokRun initTok (strBytes "truX")).2.2 = some ⟨0⟩ := by
  constructor
  · intro s b
    cases hp : s.phase
    case idle => simp [stepError, tokStep, hp]
    case inString =>
      simp only [stepError, tokStep, hp]
      split_ifs <;> simp_all
    case inEscape => simp [stepError, tokStep, hp]
    case inNumber =>
      simp only [stepError, tokStep, hp]
      split_ifs <;> simp_all
    case inLiteral =>
      simp only [stepError, tokStep, hp]
      split_ifs with h1 h2 <;> simp_all
  · rfl

/-- C9: the decoded value of an accumulated string equals its UTF-8 decoding
whenever the content is at least 32 bytes long or is pure ASCII; for short
content with a non-ASCII byte a per-byte Latin-1 style decode is used, which
differs from UTF-8 decoding on some inputs (here the two bytes of `é`). -/
theorem c9_decode_buffer :
    (∀ bytes : List ℕ, 32 ≤ bytes.length →
      decodeBufferAux bytes.length bytes = utf8TextDecode bytes) ∧
    (∀ bytes : List ℕ, (∀ b ∈ bytes, b < 128) →
      decodeBufferAux bytes.length bytes = utf8TextDecode bytes) ∧
    decodeBufferAux 2 [195, 169] ≠ utf8TextDecode [195, 169] := by
  have ascii_go : ∀ (fuel : ℕ) (l : List ℕ), l.length ≤ fuel →
      (∀ b ∈ l, b < 128) → utf8Go fuel l = l.map Char.ofNat := by
    intro fuel
    induction fuel with
    | zero =>
      intro l h _
      cases l with
      | nil => rfl
      | cons b r => simp at h
    | succ n ih =>
      intro l h hb
      cases l with
      | nil => rfl
      | cons b r =>
        have hblt : b < 128 := hb b (by simp)
        simp only [utf8Go, if_pos hblt, List.map_cons]
        have := ih r (by simpa using Nat.le_of_succ_le_succ h)
          (fun x hx => hb x (by simp [hx]))
        rw [this]
  have strip_ascii : ∀ l : List ℕ, (∀ b ∈ l, b < 128) → stripBOM l = l := by
    intro l hb
    rcases l with _ | ⟨a, _ | ⟨b2, _ | ⟨c, r⟩⟩⟩
    · rfl
    · rfl
    · rfl
    · have ha : a < 128 := hb a (by simp)
      have hno : ¬(a = 0xEF ∧ b2 = 0xBB ∧ c = 0xBF) := by
        rintro ⟨h, -, -⟩
        omega
      simp [stripBOM, hno]
  have ascii_decode : ∀ l : List ℕ, (∀ b ∈ l, b < 128) →
      utf8TextDecode l = latin1Decode l := by
    intro l hb
    unfold utf8TextDecode latin1Decode utf8Decode
    rw [strip_ascii l hb, ascii_go l.length l le_rfl hb]
  refine ⟨?_, ?_, ?_⟩
  · intro bytes h
    unfold decodeBufferAux
    rw [if_neg (by omega), if_neg (by omega)]
  · intro bytes hb
    unfold decodeBufferAux
    by_cases h0 : bytes.length = 0
    · rw [if_pos h0]
      have : bytes = [] := List.length_eq_zero.mp h0
      subst this
      rfl
    · rw [if_neg h0]
      by_cases h32 : bytes.length < 32
      · rw [if_pos h32, ascii_decode bytes hb]
      · rw [if_neg h32]
  · decide

/-- Witness instantiating both hypothesis-bearing parts of the decode
theorem at concrete byte lists. -/
theorem c9_decode_buffer_witness :
    decodeBufferAux (List.replicate 32 97).length (List.replicate 32 97) =
      utf8TextDecode (List.replicate 32 97) ∧
    decodeBufferAux ([104, 105] : List ℕ).length [104, 105] =
      utf8TextDecode [104, 105] :=
  ⟨c9_decode_buffer.1 (List.replicate 32 97) (by decide),
   c9_decode_buffer.2.1 [104, 105] (by decide)⟩

/-- C7 evaluation: on the buffer whose root object has a string-valued first
key, the built index treats the string value `x` as a key candidate, records
it at the colon belonging to `b`, and never records `b`; the documented
result (every root key mapped to its colon offset) differs. -/
theorem c7_root_index_eval :
    buildRootIndex (strBytes "\x7b\"a\":\"x\",\"b\":1\x7d") = [("a", 4), ("x", 12)] ∧
    buildRootIndex (strBytes "\x7b\"a\":\"x\",\"b\":1\x7d") ≠ [("a", 4), ("b", 12)] := by
  constructor
  · rfl
  · decide

/-- The only error a structure start can throw is the structural mismatch. -/
theorem onStructureStart_error (s : EngState) (a : Bool) (E : EngErr)
    (h : onStructureStart s a = .error E) : E = .structuralMismatch := by
  unfold onStructureStart at h
  repeat' split at h
  all_goals
    rcases hsl : selLookup (s.selStack.head?.getD SelVal.undefV) s.curKey
      with _ | cfg <;> simp_all

/-- Every error out of `structEndEmit` is a budget error detected at counter
value `s.matched + 1`. -/
theorem structEndEmit_error (s : EngState) (b : Option BudgetLimits)
    (el : ℕ) (sr : List SelVal) (ar : List Bool) (wa : Bool) (r1 : List Value)
    (E : EngErr) (h : structEndEmit s b el sr ar wa r1 = .error E) :
    ∃ k, E = .budget k ∧ enforceBudget b (s.matched + 1) 0 el = some k := by
  unfold structEndEmit budgetCheck at h
  repeat' split at h
  all_goals simp_all

/-- Every error out of `onStructureEnd` is the `TypeError` of an undefined
pop or a budget error at counter value `s.matched + 1`. -/
theorem onStructureEnd_error (s : EngState) (b : Option BudgetLimits) (el : ℕ)
    (E : EngErr) (h : onStructureEnd s b el = .error E) :
    E = .typeError ∨
      ∃ k, E = .budget k ∧ enforceBudget b (s.matched + 1) 0 el = some k := by
  unfold onStructureEnd at h
  rcases hsel : s.selStack.headD SelVal.undefV with n | _ | _ <;>
    simp only [hsel] at h
  · exact Or.inr (structEndEmit_error _ _ _ _ _ _ _ _ h)
  · simp at h
  · split at h
    · exact Or.inr (structEndEmit_error _ _ _ _ _ _ _ _ h)
    · injection h with h2
      exact Or.inl h2.symm

/-- Every error out of `onValue` is a structural mismatch, an undefined
`TypeError`, or a budget error at counter value `s.matched + 1`. -/
theorem onValue_error (s : EngState) (v : Value) (b : Option BudgetLimits)
    (el : ℕ) (E : EngErr) (h : onValue s v b el = .error E) :
    E = .structuralMismatch ∨ E = .typeError ∨
      ∃ k, E = .budget k ∧ enforceBudget b (s.matched + 1) 0 el = some k := by
  unfold onValue budgetCheck at h
  rcases hsel : s.selStack.headD SelVal.undefV with n | _ | _ <;>
    simp only [hsel] at h <;>
    repeat' split at h
  all_goals simp_all

/-- Error classification for a full engine step. -/
theorem engStep_error (b : Option BudgetLimits) (e : ℕ) (s : EngState)
    (t : Tok) (E : EngErr) (h : engStep b e s t = .error E) :
    E = .structuralMismatch ∨ E = .typeError ∨
      ∃ k, E = .budget k ∧ enforceBudget b (s.matched + 1) 0 e = some k := by
  unfold engStep at h
  repeat' split at h
  all_goals first
    | exact absurd h (by simp)
    | exact Or.inl (onStructureStart_error _ _ _ h)
    | exact onValue_error _ _ _ _ _ h
    | (rcases onStructureEnd_error _ _ _ _ h with h1 | h1
       · exact Or.inr (Or.inl h1)
       · exact Or.inr (Or.inr h1))

/-- A run can only report a budget kind that `enforceBudget` can actually
signal at the run's byte count 0 and elapsed time. -/
theorem run_no_budget_kind (b : Option BudgetLimits) (e : ℕ) (k : BudgetKind)
    (hk : ∀ m, enforceBudget b m 0 e ≠ some k) :
    ∀ (ts : List Tok) (s : EngState),
      (runEng b e s ts).2 ≠ some (.budget k) := by
  intro ts
  induction ts with
  | nil => intro s; simp [runEng]
  | cons t rest ih =>
    intro s
    simp only [runEng]
    cases h : engStep b e s t with
    | error E =>
      rcases engStep_error b e s t E h with h1 | h1 | ⟨k2, hk2, henf⟩
      · simp [h1]
      · simp [h1]
      · subst hk2
        simp only []
        intro hc
        have : k2 = k := by simpa using hc
        subst this
        exact hk _ henf
    | ok s1 => exact ih s1

/-- C10: a budget limit set to 0 disables its check entirely: for each of
the three limits, a zero value means `enforceBudget` never reports that
limit whatever the counters are, and an engine run over any token sequence
never throws `BudgetExhaustedError` for that limit. -/
theorem c10_zero_budget_disables :
    (∀ (lim : BudgetLimits) (matched bytes elapsed : ℕ),
      (lim.maxMatches = 0 →
        enforceBudget (some lim) matched bytes elapsed ≠ some .matches) ∧
      (lim.maxBytes = 0 →
        enforceBudget (some lim) matched bytes elapsed ≠ some .bytes) ∧
      (lim.maxDurationMs = 0 →
        enforceBudget (some lim) matched bytes elapsed ≠ some .duration)) ∧
    (∀ (lim : BudgetLimits) (m : SelMap) (elapsed : ℕ) (ts : List Tok),
      (lim.maxMatches = 0 →
        (runEng (some lim) elapsed (initEng m) ts).2 ≠ some (.budget .matches)) ∧
      (lim.maxBytes = 0 →
        (runEng (some lim) elapsed (initEng m) ts).2 ≠ some (.budget .bytes)) ∧
      (lim.maxDurationMs = 0 →
        (runEng (some lim) elapsed (initEng m) ts).2 ≠ some (.budget .duration))) := by
  have base : ∀ (lim : BudgetLimits) (matched bytes elapsed : ℕ),
      (lim.maxMatches = 0 →
        enforceBudget (some lim) matched bytes elapsed ≠ some .matches) ∧
      (lim.maxBytes = 0 →
        enforceBudget (some lim) matched bytes elapsed ≠ some .bytes) ∧
      (lim.maxDurationMs = 0 →
        enforceBudget (some lim) matched bytes elapsed ≠ some .duration) := by
    intro lim matched bytes elapsed
    simp only [enforceBudget]
    split_ifs <;> simp_all
  refine ⟨base, ?_⟩
  intro lim m elapsed ts
  refine ⟨fun h0 => ?_, fun h0 => ?_, fun h0 => ?_⟩
  · exact run_no_budget_kind (some lim) elapsed .matches
      (fun n => (base lim n 0 elapsed).1 h0) ts (initEng m)
  · exact run_no_budget_kind (some lim) elapsed .bytes
      (fun n => (base lim n 0 elapsed).2.1 h0) ts (initEng m)
  · exact run_no_budget_kind (some lim) elapsed .duration
      (fun n => (base lim n 0 elapsed).2.2 h0) ts (initEng m)

/-- Witness for C10 at concrete limits, counters and a concrete run. -/
theorem c10_zero_budget_disables_witness :
    enforceBudget (some ⟨0, 5, 5⟩) 100 3 3 ≠ some .matches ∧
    (runEng (some ⟨0, 0, 0⟩) 7 (initEng [("a", Config.pass)])
      [Tok.lbrace, Tok.str "a", Tok.colon, Tok.num (.num 1), Tok.rbrace]).2 ≠
      some (.budget .matches) :=
  ⟨(c10_zero_budget_disables.1 ⟨0, 5, 5⟩ 100 3 3).1 rfl,
   (c10_zero_budget_disables.2 ⟨0, 0, 0⟩ [("a", Config.pass)] 7
      [Tok.lbrace, Tok.str "a", Tok.colon, Tok.num (.num 1), Tok.rbrace]).1 rfl⟩

/-- C8 counterexample: with an explicit `dec: 0` argument the code rounds
1.5 to the default two fractional digits (giving 1.5), not to
clamp(0, 0, 20) = 0 digits (which would give 2), because `args.dec || 2`
treats 0 as absent. -/
theorem c8_counterexample :
    directiveExecute "formatNumber" (Value.vnum (3 / 2)) [("dec", AVal.num 0)] ≠
      formatNumberSpec (Value.vnum (3 / 2)) 0 := by
  have hd : decDigits (List.lookup "dec" [("dec", AVal.num 0)]) = 2 := by
    simp only [List.lookup, beq_self_eq_true, decDigits, avalTruthy, avalToNum]
    norm_num
    rfl
  have h1 : directiveExecute "formatNumber" (Value.vnum (3 / 2))
      [("dec", AVal.num 0)] = Value.vnum (3 / 2) := by
    simp only [directiveExecute, hd]
    norm_num [roundToDec, jsRoundHalfAway]
  have h2 : formatNumberSpec (Value.vnum (3 / 2)) 0 = Value.vnum 2 := by
    simp only [formatNumberSpec]
    norm_num [roundToDec, jsRoundHalfAway]
  rw [h1, h2]
  simp only [ne_eq, Value.vnum.injEq]
  norm_num

/-- C8 amended: for a finite number and an integer `dec` argument N the
directive rounds to clamp(N, 0, 20) fractional digits when N is nonzero,
but to the default 2 digits when N = 0 (the `args.dec || 2` fallback); any
non-number input is returned unchanged. -/
theorem c8_formatNumber_amended :
    (∀ (q : ℚ) (N : ℤ),
      directiveExecute "formatNumber" (Value.vnum q) [("dec", AVal.num (N : ℚ))] =
        Value.vnum (roundToDec q
          (if N = 0 then 2 else (max 0 (min N 20)).toNat))) ∧
    (∀ (v : Value) (args : List (String × AVal)), isNumberV v = false →
      directiveExecute "formatNumber" v args = v) := by
  constructor
  · intro q N
    simp only [directiveExecute, decDigits, avalTruthy, avalToNum, List.lookup]
    by_cases hN : N = 0
    · subst hN
      rfl
    · have hb : ((!((N : ℚ) == 0)) = true) := by
        simp only [Bool.not_eq_true', beq_eq_false_iff_ne, ne_eq, Int.cast_eq_zero]
        exact hN
      have hcast : (max 0 (min (N : ℚ) 20)) = ((max 0 (min N 20) : ℤ) : ℚ) := by
        push_cast
        rfl
      simp only [List.lookup, beq_self_eq_true, hb, if_true, hcast,
        Int.floor_intCast, if_neg hN]
  · intro v args hv
    cases v <;> simp_all [directiveExecute, isNumberV]

/-- Witness instantiating the non-number part of the amended formatNumber
theorem. -/
theorem c8_formatNumber_amended_witness :
    directiveExecute "formatNumber" (Value.vstr "x") [] = Value.vstr "x" :=
  c8_formatNumber_amended.2 (Value.vstr "x") [] rfl

/-- Updating a key makes it present; presence of other keys is unchanged. -/
theorem hasKey_setKey {α : Type} (l : List (String × α)) (k k' : String) (v : α) :
    hasKey (setKey l k v) k' = true ↔ (k' = k ∨ hasKey l k' = true) := by
  induction l with
  | nil => simp [setKey, hasKey, eq_comm]
  | cons p rest ih =>
    obtain ⟨k0, v0⟩ := p
    by_cases hk : k0 = k
    · subst hk
      simp only [setKey, eq_self_iff_true, if_true]
      simp only [hasKey, List.any_cons, Bool.or_eq_true, decide_eq_true_eq] at ih ⊢
      tauto
    · simp only [setKey, if_neg hk]
      simp only [hasKey, List.any_cons, Bool.or_eq_true, decide_eq_true_eq] at ih ⊢
      tauto

/-- C3 amended: across the missing-key pass, an output key is present
exactly when it was already present or some selection entry resolves to it
and carries a directive list whose application to the missing value
(`undefined`) yields a defined result.  In particular `@default` inserts,
no entry without directives ever inserts, but a lone `@coerce` inserts as
well. -/
theorem c3_defaults_amended (sel : SelMap) (res : List (String × Value))
    (tk : String) :
    hasKey (applyMissingDefaults sel res) tk = true ↔
      (hasKey res tk = true ∨
        ∃ k cfg, (k, cfg) ∈ sel ∧ jsOr (aliasOf cfg) k = tk ∧
          ∃ ds, directivesOf cfg = some ds ∧
            applyDirectives Value.undef (some ds) ≠ Value.undef) := by
  induction sel generalizing res with
  | nil => simp [applyMissingDefaults]
  | cons kv rest ih =>
    obtain ⟨k0, cfg0⟩ := kv
    simp only [applyMissingDefaults]
    rw [ih]
    have step :
        hasKey
          (if hasKey res (jsOr (aliasOf cfg0) k0) then res
           else
             match directivesOf cfg0 with
             | none => res
             | some ds =>
               match applyDirectives .undef (some ds) with
               | .undef => res
               | dv => setKey res (jsOr (aliasOf cfg0) k0) dv) tk = true ↔
        (hasKey res tk = true ∨
          (jsOr (aliasOf cfg0) k0 = tk ∧
            ∃ ds, directivesOf cfg0 = some ds ∧
              applyDirectives Value.undef (some ds) ≠ Value.undef)) := by
      by_cases h0 : hasKey res (jsOr (aliasOf cfg0) k0) = true
      · rw [if_pos h0]
        constructor
        · exact fun h => Or.inl h
        · rintro (h | ⟨htk, -⟩)
          · exact h
          · rw [← htk]
            exact h0
      · rw [if_neg h0]
        cases hds : directivesOf cfg0 with
        | none => simp
        | some ds =>
          rcases hdv : applyDirectives Value.undef (some ds) with
            _ | _ | bv | qv | _ | sv | ev | fv <;>
            simp only [hdv]
          · simp
            intro _ hne
            exact absurd hdv hne
          all_goals
            rw [hasKey_setKey]
            constructor
            · rintro (h1 | h1)
              · exact Or.inr ⟨h1.symm, ds, rfl, by rw [hdv]; simp⟩
              · exact Or.inl h1
            · rintro (h1 | ⟨htk, -⟩)
              · exact Or.inr h1
              · exact Or.inl htk.symm
    rw [step]
    simp only [List.mem_cons, Prod.mk.injEq]
    constructor
    · rintro ((h | ⟨htk, ds, hds, hne⟩) | ⟨k, cfg, hmem, htk, ds, hds, hne⟩)
      · exact Or.inl h
      · exact Or.inr ⟨k0, cfg0, Or.inl ⟨rfl, rfl⟩, htk, ds, hds, hne⟩
      · exact Or.inr ⟨k, cfg, Or.inr hmem, htk, ds, hds, hne⟩
    · rintro (h | ⟨k, cfg, (⟨hk, hcfg⟩ | hmem), htk, ds, hds, hne⟩)
      · exact Or.inl (Or.inl h)
      · subst hk
        subst hcfg
        exact Or.inl (Or.inr ⟨htk, ds, hds, hne⟩)
      · exact Or.inr ⟨k, cfg, hmem, htk, ds, hds, hne⟩

/-- C3 counterexample: a key carrying only `@coerce(type: "number")` and
absent from the input is synthesized anyway, because `Number(undefined)` is
NaN, which is a defined value; the claim says such keys are left absent.
The engine run on input with an empty root object shows the same through a
structure end. -/
theorem c3_counterexample :
    applyMissingDefaults
        [("a", Config.node none none
          (some [⟨"coerce", [("type", AVal.str "number")]⟩]))] [] =
      [("a", Value.vnan)] ∧
    (runEng none 0
        (initEng [("a", Config.node none none
          (some [⟨"coerce", [("type", AVal.str "number")]⟩]))])
        [Tok.lbrace, Tok.rbrace]).1.finalResult =
      some (Value.vobj [("a", Value.vnan)]) := by
  constructor
  · rfl
  · rfl

/-- Outcome shape of a successful `structEndEmit` under the stack
invariant: all four stacks lose exactly one frame. -/
theorem structEndEmit_ok (s : EngState) (b : Option BudgetLimits) (e : ℕ)
    (sr : List SelVal) (wa : Bool) (r1 : List Value) (s' : EngState)
    (h : structEndEmit s b e sr s.arrStack.tail wa r1 = .ok s')
    (hr : r1.length = s.arrStack.length) (ha : 1 ≤ s.arrStack.length) :
    s'.selStack = sr ∧ s'.arrStack = s.arrStack.tail ∧
    s'.keyStack = s.keyStack.tail ∧ s'.resStack.length + 1 = r1.length ∧
    s'.skipDepth = s.skipDepth ∧ s'.curKey = none := by
  unfold structEndEmit budgetCheck at h
  by_cases h1 : r1.length = 1 ∧ s.arrStack.tail.isEmpty = true ∧ wa = false
  · rw [if_pos h1] at h
    cases henf : enforceBudget b (s.matched + 1) 0 e <;> rw [henf] at h
    · injection h with h2
      subst h2
      refine ⟨rfl, rfl, rfl, ?_, rfl, rfl⟩
      simp only [List.length_tail]
      omega
    · cases h
  · rw [if_neg h1] at h
    by_cases h2 : r1.length = 1 ∧ s.arrStack.tail.isEmpty = true ∧ wa = true
    · rw [if_pos h2] at h
      injection h with h3
      subst h3
      refine ⟨rfl, rfl, rfl, ?_, rfl, rfl⟩
      simp only [List.length_tail]
      omega
    · rw [if_neg h2] at h
      rcases r1 with _ | ⟨x, _ | ⟨y, r3⟩⟩
      · exfalso
        simp at hr
        omega
      · exfalso
        have hlen1 : ([x] : List Value).length = 1 := rfl
        have htl : s.arrStack.tail.isEmpty = true := by
          have h0 : s.arrStack.tail = [] := by
            have : s.arrStack.tail.length = 0 := by
              rw [List.length_tail]
              simp at hr
              omega
            exact List.length_eq_zero.mp this
          rw [h0]
          rfl
        cases hwa : wa
        · exact h1 ⟨hlen1, htl, hwa⟩
        · exact h2 ⟨hlen1, htl, hwa⟩
      · dsimp only at h
        by_cases h3 : r3.isEmpty = true ∧ bottomIsArray s.arrStack.tail = true
        · rw [if_pos h3] at h
          cases henf : enforceBudget b (s.matched + 1) 0 e <;> rw [henf] at h
          · injection h with h4
            subst h4
            exact ⟨rfl, rfl, rfl, by simp, rfl, rfl⟩
          · cases h
        · rw [if_neg h3] at h
          injection h with h4
          subst h4
          exact ⟨rfl, rfl, rfl, by simp, rfl, rfl⟩

/-- Outcome shape of a successful structure end whose popped selection frame
is not `false`: one frame popped from each of the four stacks. -/
theorem onStructureEnd_ok (s : EngState) (b : Option BudgetLimits) (e : ℕ)
    (s' : EngState) (h : onStructureEnd s b e = .ok s')
    (hlen : s.resStack.length = s.arrStack.length)
    (ha : 1 ≤ s.arrStack.length)
    (htop : s.selStack.headD .undefV ≠ .fls) :
    s'.selStack = s.selStack.tail ∧ s'.arrStack = s.arrStack.tail ∧
    s'.keyStack = s.keyStack.tail ∧
    s'.resStack.length + 1 = s.resStack.length ∧
    s'.skipDepth = s.skipDepth ∧ s'.curKey = none := by
  unfold onStructureEnd at h
  rcases hsel : s.selStack.headD SelVal.undefV with n | _ | _ <;>
    simp only [hsel] at h
  · split at h
    · split at h
      · rename_i fs rest heq
        have hout := structEndEmit_ok s b e s.selStack.tail
          (s.arrStack.headD false)
          (Value.vobj (applyMissingDefaults (n.selection.getD []) fs) :: rest)
          s' h (by rw [← hlen, heq]; rfl) ha
        rw [heq]
        exact ⟨hout.1, hout.2.1, hout.2.2.1, hout.2.2.2.1,
          hout.2.2.2.2.1, hout.2.2.2.2.2⟩
      · exact structEndEmit_ok s b e s.selStack.tail (s.arrStack.headD false)
          s.resStack s' h hlen ha
    · exact structEndEmit_ok s b e s.selStack.tail (s.arrStack.headD false)
        s.resStack s' h hlen ha
  · exact absurd hsel htop
  · split at h
    · exact structEndEmit_ok s b e s.selStack.tail (s.arrStack.headD false)
        s.resStack s' h hlen ha
    · cases h

/-- Outcome of a structure end popping a `false` (skip-exit) frame: the
selection, kind and key stacks each pop, the result stack is untouched. -/
theorem onStructureEnd_fls (s : EngState) (b : Option BudgetLimits) (e : ℕ)
    (s' : EngState) (h : onStructureEnd s b e = .ok s')
    (htop : s.selStack.headD .undefV = .fls) :
    s' = { s with
      selStack := s.selStack.tail, arrStack := s.arrStack.tail,
      keyStack := s.keyStack.tail, curKey := none } := by
  unfold onStructureEnd at h
  simp only [htop] at h
  injection h with h2
  exact h2.symm

/-- Outcome shape of a successful `onValue`: no stack changes length, the
selection, kind and key stacks are untouched, the pending key is cleared and
skip depth is unchanged. -/
theorem onValue_ok (s : EngState) (v : Value) (b : Option BudgetLimits)
    (e : ℕ) (s' : EngState) (h : onValue s v b e = .ok s') :
    s'.selStack = s.selStack ∧ s'.arrStack = s.arrStack ∧
    s'.keyStack = s.keyStack ∧ s'.resStack.length = s.resStack.length ∧
    s'.skipDepth = s.skipDepth ∧ s'.curKey = none := by
  unfold onValue budgetCheck at h
  rcases hsel : s.selStack.headD SelVal.undefV with n | _ | _ <;>
    simp only [hsel] at h <;>
    repeat' split at h
  all_goals first
    | (exact Except.noConfusion h)
    | (injection h with h2
       subst h2
       refine ⟨rfl, rfl, rfl, ?_, rfl, rfl⟩
       simp_all)

/-- Outcome shape of a successful `onStructureStart`: the selection, kind
and key stacks each gain exactly one frame, the pending key is cleared, and
either a container frame is pushed (the result stack grows by one, skip
depth unchanged, the new selection top being the inherited parent or a
normalized record) or skip mode starts (result stack untouched, skip depth
set to 1, a `false` frame on top). -/
theorem onStructureStart_ok (s : EngState) (a : Bool) (s' : EngState)
    (h : onStructureStart s a = .ok s') :
    s'.keyStack.length = s.keyStack.length + 1 ∧
    s'.arrStack = a :: s.arrStack ∧ s'.curKey = none ∧
    ∃ p, s'.selStack = p :: s.selStack ∧
      ((p = SelVal.fls ∧ s'.skipDepth = 1 ∧ s'.resStack = s.resStack) ∨
       ((p = s.selStack.headD SelVal.undefV ∨ ∃ n, p = SelVal.node n) ∧
        s'.skipDepth = s.skipDepth ∧
        s'.resStack.length = s.resStack.length + 1)) := by
  simp only [onStructureStart] at h
  repeat' split at h
  all_goals first
    | (exact Except.noConfusion h)
    | (injection h with h2
       subst h2
       exact ⟨by simp, rfl, rfl, _, rfl,
         Or.inr ⟨Or.inl rfl, rfl, by simp⟩⟩)
    | (injection h with h2
       subst h2
       exact ⟨by simp, rfl, rfl, _, rfl,
         Or.inr ⟨Or.inr ⟨_, rfl⟩, rfl, by simp⟩⟩)
    | (injection h with h2
       subst h2
       exact ⟨by simp, rfl, rfl, _, rfl, Or.inl ⟨rfl, rfl, rfl⟩⟩)

/-- In skip mode an opening token only increments the skip counter; no
stack is touched. -/
theorem engStep_skip_open (b : Option BudgetLimits) (e : ℕ) (s : EngState)
    (t : Tok) (hs : 1 ≤ s.skipDepth) (ht : isOpenTok t = true) :
    engStep b e s t = .ok { s with skipDepth := s.skipDepth + 1 } := by
  cases t <;> first
    | exact Bool.noConfusion ht
    | (unfold engStep
       rw [if_pos (by omega : s.skipDepth ≠ 0)])

/-- In skip mode a closing token that does not end the skipped subtree only
decrements the skip counter; no stack is touched. -/
theorem engStep_skip_close (b : Option BudgetLimits) (e : ℕ) (s : EngState)
    (t : Tok) (hs : 2 ≤ s.skipDepth) (ht : isCloseTok t = true) :
    engStep b e s t = .ok { s with skipDepth := s.skipDepth - 1 } := by
  cases t <;> first
    | exact Bool.noConfusion ht
    | (unfold engStep
       rw [if_pos (by omega : s.skipDepth ≠ 0)]
       dsimp only
       rw [if_neg (by omega : ¬s.skipDepth = 1)])

/-- In skip mode every non-structural token is ignored entirely: the state
is returned unchanged. -/
theorem engStep_skip_other (b : Option BudgetLimits) (e : ℕ) (s : EngState)
    (t : Tok) (hs : 1 ≤ s.skipDepth) (ho : isOpenTok t = false)
    (hc : isCloseTok t = false) : engStep b e s t = .ok s := by
  cases t <;> first
    | exact Bool.noConfusion ho
    | exact Bool.noConfusion hc
    | (unfold engStep
       rw [if_pos (by omega : s.skipDepth ≠ 0)])

/-- A structure start in normal mode preserves the stack invariant and
increments the structural depth by one. -/
theorem onStructureStart_inv (s : EngState) (a : Bool) (s' : EngState)
    (h : onStructureStart s a = .ok s') (hs : s.skipDepth = 0)
    (hinv : InvAux s) : InvAux s' ∧ engDepth s' = engDepth s + 1 := by
  obtain ⟨⟨hk, hsl, hrl⟩, hfls⟩ := hinv
  rw [if_pos hs] at hfls
  rw [if_pos hs] at hrl
  obtain ⟨hk1, ha1, _, p, hp, hcase⟩ := onStructureStart_ok s a s' h
  have ha1l : s'.arrStack.length = s.arrStack.length + 1 := by
    rw [ha1]
    rfl
  have hp1l : s'.selStack.length = s.selStack.length + 1 := by
    rw [hp]
    rfl
  rcases hcase with ⟨hpf, hsk, hres⟩ | ⟨hpn, hsk, hres⟩
  · have hresl : s'.resStack.length = s.resStack.length := by rw [hres]
    refine ⟨⟨⟨by omega, by omega, ?_⟩, ?_⟩, ?_⟩
    · rw [hsk, if_neg (by omega : ¬(1 : ℕ) = 0)]
      omega
    · rw [hsk, if_neg (by omega : ¬(1 : ℕ) = 0)]
      exact ⟨s.selStack, by rw [hp, hpf], hfls⟩
    · unfold engDepth
      rw [hsk, hs, if_neg (by omega : ¬(1 : ℕ) = 0), if_pos rfl]
      omega
  · rw [hs] at hsk
    refine ⟨⟨⟨by omega, by omega, ?_⟩, ?_⟩, ?_⟩
    · rw [hsk, if_pos rfl]
      omega
    · rw [hsk, if_pos rfl, hp]
      intro hmem
      rcases List.mem_cons.mp hmem with hq | hq
      · rcases hpn with hph | ⟨n, hpn⟩
        · rcases hss : s.selStack with _ | ⟨a0, tl0⟩
          · rw [hss] at hsl
            simp at hsl
          · rw [hph, hss] at hq
            rw [hss] at hfls
            exact hfls (hq ▸ List.mem_cons_self a0 tl0)
        · rw [hpn] at hq
          exact SelVal.noConfusion hq
      · exact hfls hq
    · unfold engDepth
      rw [hsk, hs, if_pos rfl]
      omega

/-- A structure end in normal mode at positive depth preserves the stack
invariant and decrements the structural depth by one. -/
theorem onStructureEnd_inv (s : EngState) (b : Option BudgetLimits) (e : ℕ)
    (s' : EngState) (h : onStructureEnd s b e = .ok s') (hs : s.skipDepth = 0)
    (hinv : InvAux s) (hd : 1 ≤ engDepth s) :
    InvAux s' ∧ engDepth s' + 1 = engDepth s := by
  obtain ⟨⟨hk, hsl, hrl⟩, hfls⟩ := hinv
  rw [if_pos hs] at hfls
  rw [if_pos hs] at hrl
  have ha : 1 ≤ s.arrStack.length := by
    unfold engDepth at hd
    rw [if_pos hs] at hd
    omega
  rcases hss : s.selStack with _ | ⟨a0, tl0⟩
  · rw [hss] at hsl
    simp at hsl
  · rw [hss] at hfls
    simp [List.mem_cons] at hfls
    have htop : s.selStack.headD .undefV ≠ .fls := by
      rw [hss]
      intro hEq
      exact hfls.1 hEq.symm
    obtain ⟨e1, e2, e3, e4, e5, e6⟩ :=
      onStructureEnd_ok s b e s' h (by omega) ha htop
    have le1 : s'.selStack.length + 1 = s.selStack.length := by
      rw [e1, List.length_tail]
      omega
    have le2 : s'.arrStack.length + 1 = s.arrStack.length := by
      rw [e2, List.length_tail]
      omega
    have le3 : s'.keyStack.length + 1 = s.keyStack.length := by
      rw [e3, List.length_tail]
      omega
    refine ⟨⟨⟨by omega, by omega, ?_⟩, ?_⟩, ?_⟩
    · rw [e5, hs, if_pos rfl]
      omega
    · rw [e5, hs, if_pos rfl, e1, hss]
      exact hfls.2
    · unfold engDepth
      rw [e5, hs, if_pos rfl]
      omega

/-- Every successful engine step on an opening token preserves the stack
invariant and increments the structural depth. -/
theorem engStep_open (b : Option BudgetLimits) (e : ℕ) (s s' : EngState)
    (t : Tok) (ht : isOpenTok t = true) (h : engStep b e s t = .ok s')
    (hinv : InvAux s) : InvAux s' ∧ engDepth s' = engDepth s + 1 := by
  by_cases hs : s.skipDepth = 0
  · cases t <;> first
      | exact Bool.noConfusion ht
      | (unfold engStep at h
         rw [if_neg (by omega : ¬s.skipDepth ≠ 0)] at h
         exact onStructureStart_inv s _ s' h hs hinv)
  · rw [engStep_skip_open b e s t (by omega) ht] at h
    injection h with h2
    subst h2
    obtain ⟨⟨hk, hsl, hrl⟩, hfls⟩ := hinv
    rw [if_neg hs] at hfls
    rw [if_neg hs] at hrl
    refine ⟨⟨⟨hk, hsl, ?_⟩, ?_⟩, ?_⟩
    · rw [if_neg (by omega : ¬s.skipDepth + 1 = 0)]
      exact hrl
    · rw [if_neg (by omega : ¬s.skipDepth + 1 = 0)]
      exact hfls
    · unfold engDepth
      rw [if_neg (by omega : ¬s.skipDepth + 1 = 0), if_neg hs]
      dsimp only
      omega

/-- Every successful engine step on a closing token at positive structural
depth preserves the stack invariant and decrements the depth. -/
theorem engStep_close (b : Option BudgetLimits) (e : ℕ) (s s' : EngState)
    (t : Tok) (ht : isCloseTok t = true) (h : engStep b e s t = .ok s')
    (hinv : InvAux s) (hd : 1 ≤ engDepth s) :
    InvAux s' ∧ engDepth s' + 1 = engDepth s := by
  by_cases hs : s.skipDepth = 0
  · cases t <;> first
      | exact Bool.noConfusion ht
      | (unfold engStep at h
         rw [if_neg (by omega : ¬s.skipDepth ≠ 0)] at h
         exact onStructureEnd_inv s b e s' h hs hinv hd)
  · by_cases h1 : s.skipDepth = 1
    · obtain ⟨⟨hk, hsl, hrl⟩, hfls⟩ := hinv
      rw [if_neg hs] at hfls
      rw [if_neg hs] at hrl
      obtain ⟨tl, hss, htl⟩ := hfls
      have hstep : onStructureEnd { s with skipDepth := 0 } b e = .ok s' := by
        cases t <;> first
          | exact Bool.noConfusion ht
          | (unfold engStep at h
             rw [if_pos (by omega : s.skipDepth ≠ 0)] at h
             dsimp only at h
             rw [if_pos h1] at h
             exact h)
      have hres := onStructureEnd_fls _ b e s' hstep (by
        show s.selStack.headD SelVal.undefV = SelVal.fls
        rw [hss]
        rfl)
      subst hres
      refine ⟨⟨⟨?_, ?_, ?_⟩, ?_⟩, ?_⟩
      · show s.keyStack.tail.length = s.arrStack.tail.length
        rw [List.length_tail, List.length_tail]
        omega
      · show s.selStack.tail.length = s.arrStack.tail.length + 1
        rw [List.length_tail, List.length_tail]
        omega
      · show s.resStack.length + (if (0 : ℕ) = 0 then 0 else 1) =
          s.arrStack.tail.length
        rw [if_pos rfl, List.length_tail]
        omega
      · show if (0 : ℕ) = 0 then SelVal.fls ∉ s.selStack.tail else _
        rw [if_pos rfl, hss]
        exact htl
      · show s.arrStack.tail.length + (if (0 : ℕ) = 0 then 0 else 1) + 1 =
          engDepth s
        unfold engDepth
        rw [if_pos rfl, if_neg hs, List.length_tail, h1]
        omega
    · rw [engStep_skip_close b e s t (by omega) ht] at h
      injection h with h2
      subst h2
      obtain ⟨⟨hk, hsl, hrl⟩, hfls⟩ := hinv
      rw [if_neg hs] at hfls
      rw [if_neg hs] at hrl
      refine ⟨⟨⟨hk, hsl, ?_⟩, ?_⟩, ?_⟩
      · rw [if_neg (by omega : ¬s.skipDepth - 1 = 0)]
        exact hrl
      · rw [if_neg (by omega : ¬s.skipDepth - 1 = 0)]
        exact hfls
      · unfold engDepth
        rw [if_neg (by omega : ¬s.skipDepth - 1 = 0), if_neg hs]
        dsimp only
        omega

/-- Every successful engine step on a non-structural token preserves the
stack invariant and the structural depth. -/
theorem engStep_other (b : Option BudgetLimits) (e : ℕ) (s s' : EngState)
    (t : Tok) (ho : isOpenTok t = false) (hc : isCloseTok t = false)
    (h : engStep b e s t = .ok s') (hinv : InvAux s) :
    InvAux s' ∧ engDepth s' = engDepth s := by
  by_cases hs : s.skipDepth = 0
  · have hval : ∀ (v : Value), onValue s v b e = .ok s' →
        InvAux s' ∧ engDepth s' = engDepth s := by
      intro v hv
      obtain ⟨e1, e2, e3, e4, e5, e6⟩ := onValue_ok s v b e s' hv
      obtain ⟨⟨hk, hsl, hrl⟩, hfls⟩ := hinv
      refine ⟨⟨⟨?_, ?_, ?_⟩, ?_⟩, ?_⟩
      · rw [e3, e2]
        exact hk
      · rw [e1, e2]
        exact hsl
      · rw [e4, e5, e2]
        exact hrl
      · rw [e5, e1]
        exact hfls
      · unfold engDepth
        rw [e2, e5]
    cases t <;> first
      | exact Bool.noConfusion ho
      | exact Bool.noConfusion hc
      | (unfold engStep at h
         rw [if_neg (by omega : ¬s.skipDepth ≠ 0)] at h
         first
           | (injection h with h2
              subst h2
              exact ⟨hinv, rfl⟩)
           | (exact hval _ h)
           | (rcases hek : expectingKey s with _ | _ <;> rw [hek] at h
              · exact hval _ h
              · injection h with h2
                subst h2
                exact ⟨hinv, rfl⟩))
  · rw [engStep_skip_other b e s t (by omega) ho hc] at h
    injection h with h2
    subst h2
    exact ⟨hinv, rfl⟩

/-- Over any prefix-balanced token list the stack invariant holds of the
state a run returns, whether it finishes or stops at a thrown error. -/
theorem runEng_inv (b : Option BudgetLimits) (e : ℕ) (ts : List Tok) :
    ∀ s : EngState, InvAux s → balFrom (engDepth s) ts = true →
    InvAux (runEng b e s ts).1 := by
  induction ts with
  | nil =>
    intro s hinv _
    exact hinv
  | cons t ts ih =>
    intro s hinv hbal
    unfold runEng
    cases hstep : engStep b e s t with
    | error E => exact hinv
    | ok s1 =>
      unfold balFrom at hbal
      by_cases ho : isOpenTok t = true
      · rw [if_pos ho] at hbal
        obtain ⟨hinv1, hd1⟩ := engStep_open b e s s1 t ho hstep hinv
        exact ih s1 hinv1 (by rw [hd1]; exact hbal)
      · by_cases hc : isCloseTok t = true
        · rw [if_neg ho, if_pos hc, Bool.and_eq_true, decide_eq_true_eq]
            at hbal
          obtain ⟨hne, hbal1⟩ := hbal
          obtain ⟨hinv1, hd1⟩ :=
            engStep_close b e s s1 t hc hstep hinv (by omega)
          exact ih s1 hinv1 (by
            have hd2 : engDepth s1 = engDepth s - 1 := by omega
            rw [hd2]
            exact hbal1)
        · rw [if_neg ho, if_neg hc] at hbal
          obtain ⟨hinv1, hd1⟩ := engStep_other b e s s1 t
            (by simpa using ho) (by simpa using hc) hstep hinv
          exact ih s1 hinv1 (by rw [hd1]; exact hbal)

/-- The constructor state satisfies the strengthened invariant. -/
theorem initEng_inv (m : SelMap) : InvAux (initEng m) := by
  refine ⟨⟨rfl, rfl, rfl⟩, ?_⟩
  simp [initEng]

/-- C4 (amended): in every state reached by a prefix-balanced run the kind
and key stacks share a length, the selection stack is one frame longer (its
root sentinel), and the result stack matches the kind stack except inside a
skipped subtree, where it is one frame shorter; and while skip depth is
positive token handling never touches any stack: opens only increment the
counter, closes that stay inside the subtree only decrement it, and
non-structural tokens leave the state unchanged. -/
theorem c4_amended :
    (∀ (m : SelMap) (b : Option BudgetLimits) (e : ℕ) (ts : List Tok),
      balFrom 0 ts = true → StackInv (runEng b e (initEng m) ts).1) ∧
    (∀ (b : Option BudgetLimits) (e : ℕ) (s : EngState) (t : Tok),
      1 ≤ s.skipDepth →
      (isOpenTok t = true →
        engStep b e s t = .ok { s with skipDepth := s.skipDepth + 1 }) ∧
      (isCloseTok t = true → 2 ≤ s.skipDepth →
        engStep b e s t = .ok { s with skipDepth := s.skipDepth - 1 }) ∧
      (isOpenTok t = false → isCloseTok t = false →
        engStep b e s t = .ok s)) := by
  constructor
  · intro m b e ts hbal
    exact (runEng_inv b e ts (initEng m) (initEng_inv m) hbal).1
  · intro b e s t hs
    exact ⟨fun ht => engStep_skip_open b e s t hs ht,
      fun ht h2 => engStep_skip_close b e s t h2 ht,
      fun ho hc => engStep_skip_other b e s t hs ho hc⟩

/-- Witness for the amended C4 invariant: a concrete balanced run whose
final state satisfies the invariant, and a concrete skip-mode state a null
token leaves untouched. -/
theorem c4_amended_witness :
    (balFrom 0 [Tok.lbrace, Tok.rbrace] = true ∧
      StackInv (runEng none 0 (initEng [("a", Config.pass)])
        [Tok.lbrace, Tok.rbrace]).1) ∧
    engStep none 0
        {
          selStack := [SelVal.fls, SelVal.node ⟨none, none, none⟩],
          resStack := [], keyStack := [none], arrStack := [false],
          curKey := none, skipDepth := 1, matched := 0, emissions := [],
          finalResult := none } Tok.nul =
      .ok {
          selStack := [SelVal.fls, SelVal.node ⟨none, none, none⟩],
          resStack := [], keyStack := [none], arrStack := [false],
          curKey := none, skipDepth := 1, matched := 0, emissions := [],
          finalResult := none } := by
  constructor
  · exact ⟨by decide, c4_amended.1 [("a", Config.pass)] none 0
      [Tok.lbrace, Tok.rbrace] (by decide)⟩
  · exact (c4_amended.2 none 0 _ Tok.nul (by decide)).2.2 rfl rfl

/-- C4 (refutation of the literal claim): one opening brace into a selected
root object the run has thrown nothing, yet the selection stack holds two
frames while the result stack holds one, so the stacks do not all share a
length. -/
theorem c4_counterexample :
    (runEng none 0 (initEng [("a", Config.pass)]) [Tok.lbrace]).2 = none ∧
    (runEng none 0 (initEng [("a", Config.pass)])
        [Tok.lbrace]).1.selStack.length = 2 ∧
    (runEng none 0 (initEng [("a", Config.pass)])
        [Tok.lbrace]).1.resStack.length = 1 ∧
    ¬((runEng none 0 (initEng [("a", Config.pass)])
        [Tok.lbrace]).1.selStack.length =
      (runEng none 0 (initEng [("a", Config.pass)])
        [Tok.lbrace]).1.resStack.length) := by
  exact ⟨rfl, rfl, rfl, by decide⟩

/-- A successful `structEndEmit` either leaves the match counter and the
emission log unchanged or bumps the counter by one and appends exactly one
emission. -/
theorem structEndEmit_me (s : EngState) (b : Option BudgetLimits) (e : ℕ)
    (sr : List SelVal) (ar : List Bool) (wa : Bool) (r1 : List Value)
    (s' : EngState) (h : structEndEmit s b e sr ar wa r1 = .ok s') :
    (s'.matched = s.matched ∧ s'.emissions = s.emissions) ∨
    (s'.matched = s.matched + 1 ∧ ∃ em, s'.emissions = s.emissions ++ [em]) := by
  unfold structEndEmit budgetCheck at h
  repeat' split at h
  all_goals first
    | exact Except.noConfusion h
    | (injection h with h2
       subst h2
       exact Or.inl ⟨rfl, rfl⟩)
    | (injection h with h2
       subst h2
       exact Or.inr ⟨rfl, _, rfl⟩)

/-- A successful `onStructureEnd` either leaves the match counter and the
emission log unchanged or bumps the counter by one and appends exactly one
emission. -/
theorem onStructureEnd_me (s : EngState) (b : Option BudgetLimits) (e : ℕ)
    (s' : EngState) (h : onStructureEnd s b e = .ok s') :
    (s'.matched = s.matched ∧ s'.emissions = s.emissions) ∨
    (s'.matched = s.matched + 1 ∧ ∃ em, s'.emissions = s.emissions ++ [em]) := by
  unfold onStructureEnd at h
  rcases hsel : s.selStack.headD SelVal.undefV with n | _ | _ <;>
    simp only [hsel] at h
  · exact structEndEmit_me _ _ _ _ _ _ _ _ h
  · injection h with h2
    subst h2
    exact Or.inl ⟨rfl, rfl⟩
  · split at h
    · exact structEndEmit_me _ _ _ _ _ _ _ _ h
    · exact Except.noConfusion h

/-- A successful `onValue` either leaves the match counter and the emission
log unchanged or bumps the counter by one and appends exactly one
emission. -/
theorem onValue_me (s : EngState) (v : Value) (b : Option BudgetLimits)
    (e : ℕ) (s' : EngState) (h : onValue s v b e = .ok s') :
    (s'.matched = s.matched ∧ s'.emissions = s.emissions) ∨
    (s'.matched = s.matched + 1 ∧ ∃ em, s'.emissions = s.emissions ++ [em]) := by
  unfold onValue budgetCheck at h
  rcases hsel : s.selStack.headD SelVal.undefV with n | _ | _ <;>
    simp only [hsel] at h <;>
    repeat' split at h
  all_goals first
    | exact Except.noConfusion h
    | (injection h with h2
       subst h2
       exact Or.inl ⟨rfl, rfl⟩)
    | (injection h with h2
       subst h2
       exact Or.inr ⟨rfl, _, rfl⟩)

/-- A successful `onStructureStart` never moves the match counter or the
emission log. -/
theorem onStructureStart_me (s : EngState) (a : Bool) (s' : EngState)
    (h : onStructureStart s a = .ok s') :
    s'.matched = s.matched ∧ s'.emissions = s.emissions := by
  simp only [onStructureStart] at h
  repeat' split at h
  all_goals first
    | exact Except.noConfusion h
    | (injection h with h2
       subst h2
       exact ⟨rfl, rfl⟩)

/-- A successful engine step either leaves the match counter and the
emission log unchanged or bumps the counter by one and appends exactly one
emission. -/
theorem engStep_me (b : Option BudgetLimits) (e : ℕ) (s : EngState)
    (t : Tok) (s' : EngState) (h : engStep b e s t = .ok s') :
    (s'.matched = s.matched ∧ s'.emissions = s.emissions) ∨
    (s'.matched = s.matched + 1 ∧ ∃ em, s'.emissions = s.emissions ++ [em]) := by
  unfold engStep at h
  repeat' split at h
  all_goals first
    | exact Except.noConfusion h
    | (injection h with h2
       subst h2
       exact Or.inl ⟨rfl, rfl⟩)
    | exact Or.inl (onStructureStart_me _ _ _ h)
    | exact onStructureEnd_me _ _ _ _ h
    | exact onStructureEnd_me { s with skipDepth := 0 } b e s' h
    | exact onValue_me _ _ _ _ _ h

/-- With a matches-only budget, the shared budget check passes exactly while
the freshly bumped counter is within the limit, and otherwise throws the
MATCHES exhaustion error. -/
theorem budgetCheck_split (N e m1 : ℕ) (k : EngState) (hN : 1 ≤ N) :
    budgetCheck (some ⟨N, 0, 0⟩) e m1 k =
      if m1 ≤ N then .ok k else .error (.budget .matches) := by
  unfold budgetCheck enforceBudget
  dsimp only
  by_cases hle : m1 ≤ N
  · rw [if_pos hle, if_neg (by omega : ¬(N ≠ 0 ∧ N < m1)),
      if_neg (by simp : ¬((0 : ℕ) ≠ 0 ∧ (0 : ℕ) < 0)),
      if_neg (by simp : ¬((0 : ℕ) ≠ 0 ∧ 0 < e))]
  · rw [if_neg hle, if_pos (⟨by omega, by omega⟩ : N ≠ 0 ∧ N < m1)]

/-- `structEndEmit` under a matches-only budget behaves like the unbudgeted
call, except that a result whose counter passed the limit becomes the
MATCHES exhaustion error. -/
theorem structEndEmit_split (N e : ℕ) (hN : 1 ≤ N) (s : EngState)
    (sr : List SelVal) (ar : List Bool) (wa : Bool) (r1 : List Value)
    (hm : s.matched ≤ N) :
    structEndEmit s (some ⟨N, 0, 0⟩) e sr ar wa r1 =
      (match structEndEmit s none e sr ar wa r1 with
       | .ok s1 => if s1.matched ≤ N then .ok s1 else .error (.budget .matches)
       | .error E => .error E) := by
  unfold structEndEmit
  repeat' split
  all_goals first
    | rfl
    | assumption
    | (rw [budgetCheck_split N e _ _ hN]
       rename_i heq hc
       injection heq with heq2
       subst heq2
       dsimp only at hc
       first
         | rw [if_pos (by omega : s.matched + 1 ≤ N)]
         | rw [if_neg (by omega : ¬s.matched + 1 ≤ N)])
    | (rename_i heq hc
       injection heq with heq2
       subst heq2
       dsimp only at hc
       exact absurd hm hc)
    | (simp_all [budgetCheck, enforceBudget]
       done)

/-- `onStructureEnd` under a matches-only budget behaves like the unbudgeted
call, except that a result whose counter passed the limit becomes the
MATCHES exhaustion error. -/
theorem onStructureEnd_split (N e : ℕ) (hN : 1 ≤ N) (s : EngState)
    (hm : s.matched ≤ N) :
    onStructureEnd s (some ⟨N, 0, 0⟩) e =
      (match onStructureEnd s none e with
       | .ok s1 => if s1.matched ≤ N then .ok s1 else .error (.budget .matches)
       | .error E => .error E) := by
  unfold onStructureEnd
  rcases hsel : s.selStack.headD SelVal.undefV with n | _ | _ <;> simp only [hsel]
  · exact structEndEmit_split N e hN s _ _ _ _ hm
  · dsimp only
    rw [if_pos hm]
  · by_cases hp : (s.arrStack.tail.headD false) = true
    · simp only [if_pos hp]
      exact structEndEmit_split N e hN s _ _ _ _ hm
    · simp only [if_neg hp]

/-- `onValue` under a matches-only budget behaves like the unbudgeted call,
except that a result whose counter passed the limit becomes the MATCHES
exhaustion error. -/
theorem onValue_split (N e : ℕ) (hN : 1 ≤ N) (s : EngState) (v : Value)
    (hm : s.matched ≤ N) :
    onValue s v (some ⟨N, 0, 0⟩) e =
      (match onValue s v none e with
       | .ok s1 => if s1.matched ≤ N then .ok s1 else .error (.budget .matches)
       | .error E => .error E) := by
  unfold onValue
  rcases hsel : s.selStack.headD SelVal.undefV with n | _ | _ <;>
    simp only [hsel] <;>
    repeat' split
  all_goals first
    | rfl
    | assumption
    | (rw [budgetCheck_split N e _ _ hN]
       rename_i heq hc
       injection heq with heq2
       subst heq2
       dsimp only at hc
       first
         | rw [if_pos (by omega : s.matched + 1 ≤ N)]
         | rw [if_neg (by omega : ¬s.matched + 1 ≤ N)])
    | (rename_i heq hc
       injection heq with heq2
       subst heq2
       dsimp only at hc
       exact absurd hm hc)
    | (simp_all [budgetCheck, enforceBudget]
       done)

/-- An engine step under a matches-only budget behaves like the unbudgeted
step, except that a successful outcome whose counter passed the limit
becomes the MATCHES exhaustion error. -/
theorem engStep_split (N e : ℕ) (hN : 1 ≤ N) (s : EngState) (t : Tok)
    (hm : s.matched ≤ N) :
    engStep (some ⟨N, 0, 0⟩) e s t =
      (match engStep none e s t with
       | .ok s1 => if s1.matched ≤ N then .ok s1 else .error (.budget .matches)
       | .error E => .error E) := by
  have hstart : ∀ a : Bool, onStructureStart s a =
      (match onStructureStart s a with
       | .ok s1 => if s1.matched ≤ N then .ok s1 else .error (.budget .matches)
       | .error E => .error E) := by
    intro a
    cases hres : onStructureStart s a with
    | error E => rfl
    | ok s1 =>
      dsimp only
      rw [if_pos (by rw [(onStructureStart_me s a s1 hres).1]; exact hm)]
  unfold engStep
  by_cases hs : s.skipDepth ≠ 0
  · simp only [if_pos hs]
    cases t <;> dsimp only
    · rw [if_pos hm]
    · by_cases h1 : s.skipDepth = 1
      · simp only [if_pos h1]
        exact onStructureEnd_split N e hN { s with skipDepth := 0 } hm
      · simp only [if_neg h1]
        dsimp only
        rw [if_pos hm]
    · rw [if_pos hm]
    · by_cases h1 : s.skipDepth = 1
      · simp only [if_pos h1]
        exact onStructureEnd_split N e hN { s with skipDepth := 0 } hm
      · simp only [if_neg h1]
        dsimp only
        rw [if_pos hm]
    all_goals rw [if_pos hm]
  · simp only [if_neg hs]
    cases t <;> dsimp only
    · exact hstart false
    · exact onStructureEnd_split N e hN s hm
    · exact hstart true
    · exact onStructureEnd_split N e hN s hm
    · rw [if_pos hm]
    · rw [if_pos hm]
    · by_cases hek : expectingKey s = true
      · simp only [if_pos hek]
        dsimp only
        rw [if_pos hm]
      · simp only [if_neg hek]
        exact onValue_split N e hN s _ hm
    · exact onValue_split N e hN s _ hm
    · exact onValue_split N e hN s _ hm
    · exact onValue_split N e hN s _ hm
    · exact onValue_split N e hN s _ hm

/-- The match counter never decreases along a run. -/
theorem runEng_matched_mono (b : Option BudgetLimits) (e : ℕ) (ts : List Tok) :
    ∀ s : EngState, s.matched ≤ (runEng b e s ts).1.matched := by
  induction ts with
  | nil =>
    intro s
    simp [runEng]
  | cons t ts ih =>
    intro s
    cases hstep : engStep b e s t with
    | error E => simp [runEng, hstep]
    | ok s1 =>
      have hih := ih s1
      rcases engStep_me b e s t s1 hstep with ⟨hm, _⟩ | ⟨hm, _, _⟩ <;>
        simp only [runEng, hstep] <;> omega

/-- The emission log of a run extends the starting log. -/
theorem runEng_emissions_ext (b : Option BudgetLimits) (e : ℕ)
    (ts : List Tok) : ∀ s : EngState,
    ∃ ems, (runEng b e s ts).1.emissions = s.emissions ++ ems := by
  induction ts with
  | nil =>
    intro s
    exact ⟨[], by simp [runEng]⟩
  | cons t ts ih =>
    intro s
    cases hstep : engStep b e s t with
    | error E => exact ⟨[], by simp [runEng, hstep]⟩
    | ok s1 =>
      obtain ⟨ems, hems⟩ := ih s1
      rcases engStep_me b e s t s1 hstep with ⟨_, he⟩ | ⟨_, em, he⟩
      · exact ⟨ems, by
          simp only [runEng, hstep]
          rw [hems, he]⟩
      · exact ⟨em :: ems, by
          simp only [runEng, hstep]
          rw [hems, he]
          simp⟩

/-- Simulation between a matches-only budgeted run and the unbudgeted run
from any state within budget whose emission log matches its counter: if the
unbudgeted run's final counter exceeds the limit, the budgeted run stops
with the MATCHES exhaustion error holding exactly the limit's worth of
emissions, the prefix of the unbudgeted log; otherwise the two runs are
identical. -/
theorem runEng_budget_rel (N e : ℕ) (hN : 1 ≤ N) (ts : List Tok) :
    ∀ s : EngState, s.matched ≤ N → s.emissions.length = s.matched →
      (N < (runEng none e s ts).1.matched →
        (runEng (some ⟨N, 0, 0⟩) e s ts).2 = some (.budget .matches) ∧
        (runEng (some ⟨N, 0, 0⟩) e s ts).1.emissions.length = N ∧
        (runEng (some ⟨N, 0, 0⟩) e s ts).1.emissions =
          (runEng none e s ts).1.emissions.take N) ∧
      ((runEng none e s ts).1.matched ≤ N →
        runEng (some ⟨N, 0, 0⟩) e s ts = runEng none e s ts) := by
  induction ts with
  | nil =>
    intro s hm hc
    refine ⟨fun hlt => absurd hlt (by simp [runEng]; omega), fun _ => rfl⟩
  | cons t ts ih =>
    intro s hm hc
    cases hu : engStep none e s t with
    | error E =>
      have hw : engStep (some ⟨N, 0, 0⟩) e s t = .error E := by
        rw [engStep_split N e hN s t hm, hu]
      simp only [runEng, hu, hw]
      exact ⟨fun hlt => absurd hlt (by omega), fun _ => trivial⟩
    | ok s1 =>
      rcases engStep_me none e s t s1 hu with ⟨hm1, he1⟩ | ⟨hm1, em, he1⟩
      · have hw : engStep (some ⟨N, 0, 0⟩) e s t = .ok s1 := by
          rw [engStep_split N e hN s t hm, hu]
          dsimp only
          rw [if_pos (by omega)]
        simp only [runEng, hu, hw]
        exact ih s1 (by omega) (by rw [he1, hm1]; exact hc)
      · by_cases hle : s1.matched ≤ N
        · have hw : engStep (some ⟨N, 0, 0⟩) e s t = .ok s1 := by
            rw [engStep_split N e hN s t hm, hu]
            dsimp only
            rw [if_pos hle]
          simp only [runEng, hu, hw]
          exact ih s1 hle (by rw [he1, List.length_append, hc, hm1]; rfl)
        · have hsm : s.matched = N := by omega
          have hw : engStep (some ⟨N, 0, 0⟩) e s t =
              .error (.budget .matches) := by
            rw [engStep_split N e hN s t hm, hu]
            dsimp only
            rw [if_neg hle]
          simp only [runEng, hu, hw]
          constructor
          · intro _
            refine ⟨trivial, ?_, ?_⟩
            · show s.emissions.length = N
              omega
            · show s.emissions = ((runEng none e s1 ts).1.emissions).take N
              obtain ⟨ems, hems⟩ := runEng_emissions_ext none e ts s1
              rw [hems, he1, List.append_assoc]
              rw [show N = s.emissions.length from by omega]
              rw [List.take_left]
          · intro hle2
            exfalso
            have := runEng_matched_mono none e ts s1
            omega

/-- C2: with a maxMatches budget of N ≥ 1, a run throws the MATCHES
exhaustion error exactly when the identical unbudgeted run's final match
count exceeds N; when it does, the matches delivered before the error are
exactly the first N of the unbudgeted run's matches (so the error fires
strictly after the counter passes N, never at or below it), and otherwise
the budgeted run is indistinguishable from the unbudgeted one. -/
theorem c2_budget_prefix (m : SelMap) (e N : ℕ) (hN : 1 ≤ N)
    (ts : List Tok) :
    ((runEng (some ⟨N, 0, 0⟩) e (initEng m) ts).2 =
        some (.budget .matches) ↔
      N < (runEng none e (initEng m) ts).1.matched) ∧
    (N < (runEng none e (initEng m) ts).1.matched →
      (runEng (some ⟨N, 0, 0⟩) e (initEng m) ts).1.emissions =
        ((runEng none e (initEng m) ts).1.emissions).take N ∧
      (runEng (some ⟨N, 0, 0⟩) e (initEng m) ts).1.emissions.length = N) ∧
    ((runEng none e (initEng m) ts).1.matched ≤ N →
      runEng (some ⟨N, 0, 0⟩) e (initEng m) ts =
        runEng none e (initEng m) ts) := by
  have hrel := runEng_budget_rel N e hN ts (initEng m) (Nat.zero_le N) rfl
  refine ⟨⟨?_, fun hlt => (hrel.1 hlt).1⟩,
    fun hlt => ⟨(hrel.1 hlt).2.2, (hrel.1 hlt).2.1⟩, hrel.2⟩
  intro hbud
  by_contra hnot
  have hle : (runEng none e (initEng m) ts).1.matched ≤ N := by omega
  rw [hrel.2 hle] at hbud
  exact absurd hbud (run_no_budget_kind none e .matches
    (fun mm => by simp [enforceBudget]) ts (initEng m))

/-- Witness for C2 at a two-key object and a budget of one match. -/
theorem c2_budget_prefix_witness :
    1 ≤ 1 ∧
    (((runEng (some ⟨1, 0, 0⟩) 0
          (initEng [("a", Config.pass), ("b", Config.pass)])
          [Tok.lbrace, Tok.str "a", Tok.colon, Tok.tru, Tok.comma,
           Tok.str "b", Tok.colon, Tok.tru, Tok.rbrace]).2 =
        some (.budget .matches) ↔
      1 < (runEng none 0
          (initEng [("a", Config.pass), ("b", Config.pass)])
          [Tok.lbrace, Tok.str "a", Tok.colon, Tok.tru, Tok.comma,
           Tok.str "b", Tok.colon, Tok.tru, Tok.rbrace]).1.matched) ∧
    (1 < (runEng none 0
          (initEng [("a", Config.pass), ("b", Config.pass)])
          [Tok.lbrace, Tok.str "a", Tok.colon, Tok.tru, Tok.comma,
           Tok.str "b", Tok.colon, Tok.tru, Tok.rbrace]).1.matched →
      (runEng (some ⟨1, 0, 0⟩) 0
          (initEng [("a", Config.pass), ("b", Config.pass)])
          [Tok.lbrace, Tok.str "a", Tok.colon, Tok.tru, Tok.comma,
           Tok.str "b", Tok.colon, Tok.tru, Tok.rbrace]).1.emissions =
        ((runEng none 0
          (initEng [("a", Config.pass), ("b", Config.pass)])
          [Tok.lbrace, Tok.str "a", Tok.colon, Tok.tru, Tok.comma,
           Tok.str "b", Tok.colon, Tok.tru, Tok.rbrace]).1.emissions).take 1 ∧
      (runEng (some ⟨1, 0, 0⟩) 0
          (initEng [("a", Config.pass), ("b", Config.pass)])
          [Tok.lbrace, Tok.str "a", Tok.colon, Tok.tru, Tok.comma,
           Tok.str "b", Tok.colon, Tok.tru, Tok.rbrace]).1.emissions.length =
        1) ∧
    ((runEng none 0
          (initEng [("a", Config.pass), ("b", Config.pass)])
          [Tok.lbrace, Tok.str "a", Tok.colon, Tok.tru, Tok.comma,
           Tok.str "b", Tok.colon, Tok.tru, Tok.rbrace]).1.matched ≤ 1 →
      runEng (some ⟨1, 0, 0⟩) 0
          (initEng [("a", Config.pass), ("b", Config.pass)])
          [Tok.lbrace, Tok.str "a", Tok.colon, Tok.tru, Tok.comma,
           Tok.str "b", Tok.colon, Tok.tru, Tok.rbrace] =
        runEng none 0
          (initEng [("a", Config.pass), ("b", Config.pass)])
          [Tok.lbrace, Tok.str "a", Tok.colon, Tok.tru, Tok.comma,
           Tok.str "b", Tok.colon, Tok.tru, Tok.rbrace])) :=
  ⟨by decide, c2_budget_prefix [("a", Config.pass), ("b", Config.pass)] 0 1
    (by decide)
    [Tok.lbrace, Tok.str "a", Tok.colon, Tok.tru, Tok.comma,
     Tok.str "b", Tok.colon, Tok.tru, Tok.rbrace]⟩

/-- Running over a concatenation is running the pieces in sequence, stopping
at the first error. -/
theorem runEng_append (b : Option BudgetLimits) (e : ℕ)
    (ts1 ts2 : List Tok) : ∀ s : EngState,
    runEng b e s (ts1 ++ ts2) =
      (match runEng b e s ts1 with
       | (s1, none) => runEng b e s1 ts2
       | (s1, some E) => (s1, some E)) := by
  induction ts1 with
  | nil =>
    intro s
    rfl
  | cons t ts1 ih =>
    intro s
    show runEng b e s (t :: (ts1 ++ ts2)) = _
    cases hstep : engStep b e s t with
    | error E => simp only [runEng, hstep]
    | ok s1 =>
      simp only [runEng, hstep]
      exact ih s1

mutual
/-- In skip mode an entire JSON value is consumed without touching the
state: opens and closes balance out and everything else is ignored. -/
theorem skipJson (b : Option BudgetLimits) (e : ℕ) (j : Json) :
    ∀ s : EngState, 1 ≤ s.skipDepth →
    runEng b e s (tokensOf j) = (s, none) := by
  cases j with
  | str s0 =>
    intro s hs
    have h1 := engStep_skip_other b e s (Tok.str s0) hs rfl rfl
    simp only [tokensOf, runEng, h1]
  | num q =>
    intro s hs
    have h1 := engStep_skip_other b e s (Tok.num (JsNum.num q)) hs rfl rfl
    simp only [tokensOf, runEng, h1]
  | bool bv =>
    cases bv with
    | true =>
      intro s hs
      have h1 := engStep_skip_other b e s Tok.tru hs rfl rfl
      simp only [tokensOf, runEng, h1]
    | false =>
      intro s hs
      have h1 := engStep_skip_other b e s Tok.fls hs rfl rfl
      simp only [tokensOf, runEng, h1]
  | null =>
    intro s hs
    have h1 := engStep_skip_other b e s Tok.nul hs rfl rfl
    simp only [tokensOf, runEng, h1]
  | arr es =>
    intro s hs
    have h1 := engStep_skip_open b e s Tok.lbracket hs rfl
    simp only [tokensOf, runEng, h1]
    rw [runEng_append]
    rw [skipArrToks b e es { s with skipDepth := s.skipDepth + 1 }
      (by dsimp only; omega)]
    have h2 := engStep_skip_close b e { s with skipDepth := s.skipDepth + 1 }
      Tok.rbracket (by dsimp only; omega) rfl
    simp only [runEng, h2]
    rfl
  | obj fs =>
    intro s hs
    have h1 := engStep_skip_open b e s Tok.lbrace hs rfl
    simp only [tokensOf, runEng, h1]
    rw [runEng_append]
    rw [skipObjToks b e fs { s with skipDepth := s.skipDepth + 1 }
      (by dsimp only; omega)]
    have h2 := engStep_skip_close b e { s with skipDepth := s.skipDepth + 1 }
      Tok.rbrace (by dsimp only; omega) rfl
    simp only [runEng, h2]
    rfl

/-- In skip mode an array body is consumed without touching the state. -/
theorem skipArrToks (b : Option BudgetLimits) (e : ℕ) (es : JArr) :
    ∀ s : EngState, 1 ≤ s.skipDepth →
    runEng b e s (arrToks es) = (s, none) := by
  cases es with
  | nil =>
    intro s _
    rfl
  | cons v tl =>
    intro s hs
    simp only [arrToks]
    rw [runEng_append, skipJson b e v s hs]
    exact skipArrRestToks b e tl s hs

/-- In skip mode an array body continuation is consumed without touching
the state. -/
theorem skipArrRestToks (b : Option BudgetLimits) (e : ℕ) (es : JArr) :
    ∀ s : EngState, 1 ≤ s.skipDepth →
    runEng b e s (arrRestToks es) = (s, none) := by
  cases es with
  | nil =>
    intro s _
    rfl
  | cons v tl =>
    intro s hs
    have h1 := engStep_skip_other b e s Tok.comma hs rfl rfl
    simp only [arrRestToks, runEng, h1]
    rw [runEng_append, skipJson b e v s hs]
    exact skipArrRestToks b e tl s hs

/-- In skip mode an object body is consumed without touching the state. -/
theorem skipObjToks (b : Option BudgetLimits) (e : ℕ) (fs : JObj) :
    ∀ s : EngState, 1 ≤ s.skipDepth →
    runEng b e s (objToks fs) = (s, none) := by
  cases fs with
  | nil =>
    intro s _
    rfl
  | cons k v tl =>
    intro s hs
    have h1 := engStep_skip_other b e s (Tok.str k) hs rfl rfl
    have h2 := engStep_skip_other b e s Tok.colon hs rfl rfl
    simp only [objToks, runEng, h1, h2]
    rw [runEng_append, skipJson b e v s hs]
    exact skipObjRestToks b e tl s hs

/-- In skip mode an object body continuation is consumed without touching
the state. -/
theorem skipObjRestToks (b : Option BudgetLimits) (e : ℕ) (fs : JObj) :
    ∀ s : EngState, 1 ≤ s.skipDepth →
    runEng b e s (objRestToks fs) = (s, none) := by
  cases fs with
  | nil =>
    intro s _
    rfl
  | cons k v tl =>
    intro s hs
    have h0 := engStep_skip_other b e s Tok.comma hs rfl rfl
    have h1 := engStep_skip_other b e s (Tok.str k) hs rfl rfl
    have h2 := engStep_skip_other b e s Tok.colon hs rfl rfl
    simp only [objRestToks, runEng, h0, h1, h2]
    rw [runEng_append, skipJson b e v s hs]
    exact skipObjRestToks b e tl s hs
end

/-- A scalar value in array-element position: the element is appended when
the inherited selection or directive set is live, and nothing is emitted
either way. -/
theorem valueScalarArr (e : ℕ) (v : Value) (n : Node) (sr : List SelVal)
    (esAcc rr : List Value) (ks : List (Option String)) (ar : List Bool)
    (m0 : ℕ) (ems : List Emission) (fr : Option Value) :
    ∃ esAcc2,
      onValue ⟨SelVal.node n :: sr, Value.varr esAcc :: rr, ks, true :: ar,
          none, 0, m0, ems, fr⟩ v none e =
        .ok ⟨SelVal.node n :: sr, Value.varr esAcc2 :: rr, ks, true :: ar,
          none, 0, m0, ems, fr⟩ := by
  simp only [onValue, isArrayTop, List.headD_cons]
  rw [if_pos trivial]
  by_cases hsel : (n.selection.isSome || n.directives.isSome) = true
  · rw [if_pos hsel]
    exact ⟨esAcc ++ [applyDirectives v n.directives], rfl⟩
  · rw [if_neg hsel]
    exact ⟨esAcc, rfl⟩

/-- A scalar value in object-field position: the field is stored (and at
depth one emitted as a leaf match) exactly when the pending key is truthy
and selected; otherwise the value is dropped and only the pending key is
cleared. -/
theorem valueScalarObj (e : ℕ) (v : Value) (n : Node) (sr : List SelVal)
    (fsAcc : List (String × Value)) (rr : List Value)
    (ks : List (Option String)) (ar : List Bool) (k : String) (m0 : ℕ)
    (ems : List Emission) (fr : Option Value) :
    ∃ fsAcc2 news,
      onValue ⟨SelVal.node n :: sr, Value.vobj fsAcc :: rr, ks, false :: ar,
          some k, 0, m0, ems, fr⟩ v none e =
        .ok ⟨SelVal.node n :: sr, Value.vobj fsAcc2 :: rr, ks, false :: ar,
          none, 0, m0 + news.length, ems ++ news, fr⟩ ∧
      (∀ x ∈ news, x.site = ESite.leafValue) ∧
      (rr ≠ [] → news = []) := by
  simp only [onValue, isArrayTop, List.headD_cons, jsKeyTruthy,
    Option.getD_some]
  rw [if_neg (by simp : ¬(false = true))]
  by_cases hkb : (!(k == "")) = true
  · rw [if_pos hkb]
    rcases hnsel : n.selection with _ | m1
    · refine ⟨fsAcc, [], ?_, by simp, fun _ => rfl⟩
      simp only [List.append_nil]
      rfl
    · rcases hlk : m1.lookup k with _ | cfg
      · refine ⟨fsAcc, [], ?_, by simp, fun _ => rfl⟩
        simp only [hlk, List.append_nil]
        rfl
      · rcases hrr : rr with _ | ⟨r1, rr2⟩
        · refine ⟨setKey fsAcc (jsOr (aliasOf cfg) k) (applyDirectives v (directivesOf cfg)),
            [⟨ESite.leafValue, applyDirectives v (directivesOf cfg)⟩], ?_,
            by simp, fun hne => absurd rfl hne⟩
          simp only [hlk]
          rfl
        · refine ⟨setKey fsAcc (jsOr (aliasOf cfg) k) (applyDirectives v (directivesOf cfg)),
            [], ?_, by simp, fun _ => rfl⟩
          simp only [hlk, List.append_nil]
          rfl
  · rw [if_neg hkb]
    refine ⟨fsAcc, [], ?_, by simp, fun _ => rfl⟩
    simp only [List.append_nil]
    rfl

/-- The bottom of the kind stack ignores frames above the last one. -/
theorem bottomIsArray_cons₂ (x y : Bool) (l : List Bool) :
    bottomIsArray (x :: y :: l) = bottomIsArray (y :: l) := by
  simp [bottomIsArray, List.getLastD_cons]

/-- Opening a structure under an unselected (or falsy) pending key enters
skip mode: a `false` frame is pushed, the result stack is untouched. -/
theorem startInObj_skip (aIn : Bool) (n : Node) (sr : List SelVal)
    (fsAcc : List (String × Value)) (rr : List Value)
    (ks : List (Option String)) (ar : List Bool) (k : String) (m0 : ℕ)
    (ems : List Emission) (fr : Option Value)
    (hlk : selLookup (SelVal.node n) (some k) = none) :
    onStructureStart ⟨SelVal.node n :: sr, Value.vobj fsAcc :: rr, ks,
        false :: ar, some k, 0, m0, ems, fr⟩ aIn =
      .ok ⟨SelVal.fls :: SelVal.node n :: sr, Value.vobj fsAcc :: rr,
        some k :: ks, aIn :: false :: ar, none, 1, m0, ems, fr⟩ := by
  simp only [onStructureStart, isArrayTop, List.headD_cons,
    List.isEmpty_cons, hlk]
  rfl

/-- Opening a structure under a selected pending key pushes the normalized
child record and a fresh container. -/
theorem startInObj_push (aIn : Bool) (n : Node) (sr : List SelVal)
    (fsAcc : List (String × Value)) (rr : List Value)
    (ks : List (Option String)) (ar : List Bool) (k : String) (m0 : ℕ)
    (ems : List Emission) (fr : Option Value) (cfg : Config)
    (hlk : selLookup (SelVal.node n) (some k) = some cfg) :
    onStructureStart ⟨SelVal.node n :: sr, Value.vobj fsAcc :: rr, ks,
        false :: ar, some k, 0, m0, ems, fr⟩ aIn =
      .ok ⟨SelVal.node (normalize cfg) :: SelVal.node n :: sr,
        (if aIn then Value.varr [] else Value.vobj []) ::
          Value.vobj fsAcc :: rr,
        some (jsOr (normalize cfg).aliasName k) :: ks, aIn :: false :: ar,
        none, 0, m0, ems, fr⟩ := by
  simp only [onStructureStart, isArrayTop, List.headD_cons,
    List.isEmpty_cons, hlk, Option.getD_some]
  rfl

/-- Opening a structure in array-element position copies the inherited
selection and pushes a fresh container. -/
theorem startInArr (aIn : Bool) (n : Node) (sr : List SelVal)
    (esAcc : List Value) (rr : List Value) (ks : List (Option String))
    (ar : List Bool) (m0 : ℕ) (ems : List Emission) (fr : Option Value) :
    onStructureStart ⟨SelVal.node n :: sr, Value.varr esAcc :: rr, ks,
        true :: ar, none, 0, m0, ems, fr⟩ aIn =
      .ok ⟨SelVal.node n :: SelVal.node n :: sr,
        (if aIn then Value.varr [] else Value.vobj []) ::
          Value.varr esAcc :: rr,
        none :: ks, aIn :: true :: ar, none, 0, m0, ems, fr⟩ := by
  simp only [onStructureStart, isArrayTop, List.headD_cons,
    List.isEmpty_cons]
  rfl

/-- Closing a completed child container in object-field position: the
missing-key pass runs on the child when its record carries a selection, the
child attaches into the parent object under the stored output key, and
nothing is emitted (the bottom of the kind stack is not an array). -/
theorem onStructureEnd_innerObj (e : ℕ) (a : Bool) (cs n : Node)
    (sr : List SelVal) (childC : Value) (fsAcc : List (String × Value))
    (rr : List Value) (tkk : String) (ks : List (Option String))
    (ar : List Bool) (m0 : ℕ) (ems : List Emission) (fr : Option Value)
    (hbot : bottomIsArray (false :: ar) = false) :
    ∃ childV,
      onStructureEnd ⟨SelVal.node cs :: SelVal.node n :: sr,
          childC :: Value.vobj fsAcc :: rr, some tkk :: ks,
          a :: false :: ar, none, 0, m0, ems, fr⟩ none e =
        .ok ⟨SelVal.node n :: sr,
          Value.vobj (setKey fsAcc tkk childV) :: rr, ks, false :: ar,
          none, 0, m0, ems, fr⟩ := by
  unfold onStructureEnd
  simp only [List.headD_cons, List.tail_cons]
  have hshape : ∃ cV,
      (if True ∧ cs.selection.isSome = true then
        match childC :: Value.vobj fsAcc :: rr with
        | Value.vobj fs :: rest =>
          Value.vobj (applyMissingDefaults (cs.selection.getD []) fs) :: rest
        | other => other
      else childC :: Value.vobj fsAcc :: rr) =
      cV :: Value.vobj fsAcc :: rr := by
    split
    · cases childC <;> exact ⟨_, rfl⟩
    · exact ⟨childC, rfl⟩
  obtain ⟨cV, hcv⟩ := hshape
  rw [hcv]
  refine ⟨cV, ?_⟩
  unfold structEndEmit
  rw [if_neg (by simp), if_neg (by simp)]
  simp only [List.headD_cons, List.tail_cons]
  rw [if_neg (by simp [hbot])]

/-- Closing a completed child container in array-element position: no
missing-key pass (the parent is an array), the child is appended to the
parent array, and nothing is emitted. -/
theorem onStructureEnd_innerArr (e : ℕ) (a : Bool) (cs n : Node)
    (sr : List SelVal) (childC : Value) (esAcc : List Value)
    (rr : List Value) (ks : List (Option String)) (ar : List Bool)
    (m0 : ℕ) (ems : List Emission) (fr : Option Value)
    (hbot : bottomIsArray (true :: ar) = false) :
    onStructureEnd ⟨SelVal.node cs :: SelVal.node n :: sr,
        childC :: Value.varr esAcc :: rr, none :: ks, a :: true :: ar,
        none, 0, m0, ems, fr⟩ none e =
      .ok ⟨SelVal.node n :: sr, Value.varr (esAcc ++ [childC]) :: rr, ks,
        true :: ar, none, 0, m0, ems, fr⟩ := by
  unfold onStructureEnd
  simp only [List.headD_cons, List.tail_cons]
  rw [if_neg (by simp)]
  unfold structEndEmit
  rw [if_neg (by simp), if_neg (by simp)]
  simp only [List.headD_cons, List.tail_cons]
  rw [if_neg (by simp [hbot])]

mutual
/-- Processing one JSON value in object-field position (pending key `k`):
the run succeeds, the parent object possibly gains the resolved key, the
pending key is cleared, and at nesting depth two or more nothing is
emitted; at depth one at most one leaf match is emitted. -/
theorem valueObjRun (e : ℕ) (j : Json) : ∀ (n : Node) (sr : List SelVal)
    (fsAcc : List (String × Value)) (rr : List Value)
    (ks : List (Option String)) (ar : List Bool) (k : String) (m0 : ℕ)
    (ems : List Emission) (fr : Option Value),
    bottomIsArray (false :: ar) = false →
    ∃ fsAcc2 news,
      runEng none e ⟨SelVal.node n :: sr, Value.vobj fsAcc :: rr, ks,
          false :: ar, some k, 0, m0, ems, fr⟩ (tokensOf j) =
        (⟨SelVal.node n :: sr, Value.vobj fsAcc2 :: rr, ks, false :: ar,
          none, 0, m0 + news.length, ems ++ news, fr⟩, none) ∧
      (∀ x ∈ news, x.site = ESite.leafValue) ∧
      (rr ≠ [] → news = []) := by
  cases j with
  | str s0 =>
    intro n sr fsAcc rr ks ar k m0 ems fr hbot
    obtain ⟨fsAcc2, news, heq, hsites, hrr⟩ :=
      valueScalarObj e (Value.vstr s0) n sr fsAcc rr ks ar k m0 ems fr
    refine ⟨fsAcc2, news, ?_, hsites, hrr⟩
    have hstep : engStep none e ⟨SelVal.node n :: sr,
        Value.vobj fsAcc :: rr, ks, false :: ar, some k, 0, m0, ems, fr⟩
        (Tok.str s0) =
        .ok ⟨SelVal.node n :: sr, Value.vobj fsAcc2 :: rr, ks, false :: ar,
          none, 0, m0 + news.length, ems ++ news, fr⟩ := heq
    simp only [tokensOf, runEng, hstep]
  | num q =>
    intro n sr fsAcc rr ks ar k m0 ems fr hbot
    obtain ⟨fsAcc2, news, heq, hsites, hrr⟩ :=
      valueScalarObj e (Value.vnum q) n sr fsAcc rr ks ar k m0 ems fr
    refine ⟨fsAcc2, news, ?_, hsites, hrr⟩
    have hstep : engStep none e ⟨SelVal.node n :: sr,
        Value.vobj fsAcc :: rr, ks, false :: ar, some k, 0, m0, ems, fr⟩
        (Tok.num (JsNum.num q)) =
        .ok ⟨SelVal.node n :: sr, Value.vobj fsAcc2 :: rr, ks, false :: ar,
          none, 0, m0 + news.length, ems ++ news, fr⟩ := heq
    simp only [tokensOf, runEng, hstep]
  | bool bv =>
    cases bv with
    | true =>
      intro n sr fsAcc rr ks ar k m0 ems fr hbot
      obtain ⟨fsAcc2, news, heq, hsites, hrr⟩ :=
        valueScalarObj e (Value.vbool true) n sr fsAcc rr ks ar k m0 ems fr
      refine ⟨fsAcc2, news, ?_, hsites, hrr⟩
      have hstep : engStep none e ⟨SelVal.node n :: sr,
          Value.vobj fsAcc :: rr, ks, false :: ar, some k, 0, m0, ems, fr⟩
          Tok.tru =
          .ok ⟨SelVal.node n :: sr, Value.vobj fsAcc2 :: rr, ks,
            false :: ar, none, 0, m0 + news.length, ems ++ news, fr⟩ := heq
      simp only [tokensOf, runEng, hstep]
    | false =>
      intro n sr fsAcc rr ks ar k m0 ems fr hbot
      obtain ⟨fsAcc2, news, heq, hsites, hrr⟩ :=
        valueScalarObj e (Value.vbool false) n sr fsAcc rr ks ar k m0 ems fr
      refine ⟨fsAcc2, news, ?_, hsites, hrr⟩
      have hstep : engStep none e ⟨SelVal.node n :: sr,
          Value.vobj fsAcc :: rr, ks, false :: ar, some k, 0, m0, ems, fr⟩
          Tok.fls =
          .ok ⟨SelVal.node n :: sr, Value.vobj fsAcc2 :: rr, ks,
            false :: ar, none, 0, m0 + news.length, ems ++ news, fr⟩ := heq
      simp only [tokensOf, runEng, hstep]
  | null =>
    intro n sr fsAcc rr ks ar k m0 ems fr hbot
    obtain ⟨fsAcc2, news, heq, hsites, hrr⟩ :=
      valueScalarObj e Value.vnull n sr fsAcc rr ks ar k m0 ems fr
    refine ⟨fsAcc2, news, ?_, hsites, hrr⟩
    have hstep : engStep none e ⟨SelVal.node n :: sr,
        Value.vobj fsAcc :: rr, ks, false :: ar, some k, 0, m0, ems, fr⟩
        Tok.nul =
        .ok ⟨SelVal.node n :: sr, Value.vobj fsAcc2 :: rr, ks, false :: ar,
          none, 0, m0 + news.length, ems ++ news, fr⟩ := heq
    simp only [tokensOf, runEng, hstep]
  | obj fsIn =>
    intro n sr fsAcc rr ks ar k m0 ems fr hbot
    rcases hlk : selLookup (SelVal.node n) (some k) with _ | cfg
    · have hstep : engStep none e ⟨SelVal.node n :: sr,
          Value.vobj fsAcc :: rr, ks, false :: ar, some k, 0, m0, ems, fr⟩
          Tok.lbrace =
          .ok ⟨SelVal.fls :: SelVal.node n :: sr, Value.vobj fsAcc :: rr,
            some k :: ks, false :: false :: ar, none, 1, m0, ems, fr⟩ :=
        startInObj_skip false n sr fsAcc rr ks ar k m0 ems fr hlk
      refine ⟨fsAcc, [], ?_, by simp, fun _ => rfl⟩
      simp only [List.length_nil, Nat.add_zero, List.append_nil]
      simp only [tokensOf, runEng, hstep]
      rw [runEng_append]
      rw [skipObjToks none e fsIn _ (Nat.le_refl 1)]
      have hstep2 : engStep none e ⟨SelVal.fls :: SelVal.node n :: sr,
          Value.vobj fsAcc :: rr, some k :: ks, false :: false :: ar, none,
          1, m0, ems, fr⟩ Tok.rbrace =
          .ok ⟨SelVal.node n :: sr, Value.vobj fsAcc :: rr, ks, false :: ar,
            none, 0, m0, ems, fr⟩ := rfl
      simp only [runEng, hstep2]
    · have hstep : engStep none e ⟨SelVal.node n :: sr,
          Value.vobj fsAcc :: rr, ks, false :: ar, some k, 0, m0, ems, fr⟩
          Tok.lbrace =
          .ok ⟨SelVal.node (normalize cfg) :: SelVal.node n :: sr,
            Value.vobj [] :: Value.vobj fsAcc :: rr,
            some (jsOr (normalize cfg).aliasName k) :: ks,
            false :: false :: ar, none, 0, m0, ems, fr⟩ :=
        startInObj_push false n sr fsAcc rr ks ar k m0 ems fr cfg hlk
      obtain ⟨fsIn2, news1, heqf, hsites1, hrr1⟩ :=
        fieldsRun e fsIn (normalize cfg) (SelVal.node n :: sr) []
          (Value.vobj fsAcc :: rr)
          (some (jsOr (normalize cfg).aliasName k) :: ks) (false :: ar) m0
          ems fr (by rw [bottomIsArray_cons₂]; exact hbot)
      have hn1 : news1 = [] := hrr1 (by simp)
      subst hn1
      simp only [List.length_nil, Nat.add_zero, List.append_nil] at heqf
      obtain ⟨childV, hpop⟩ := onStructureEnd_innerObj e false
        (normalize cfg) n sr (Value.vobj fsIn2) fsAcc rr
        (jsOr (normalize cfg).aliasName k) ks ar m0 ems fr hbot
      have hstep2 : engStep none e
          ⟨SelVal.node (normalize cfg) :: SelVal.node n :: sr,
            Value.vobj fsIn2 :: Value.vobj fsAcc :: rr,
            some (jsOr (normalize cfg).aliasName k) :: ks,
            false :: false :: ar, none, 0, m0, ems, fr⟩ Tok.rbrace =
          .ok ⟨SelVal.node n :: sr,
            Value.vobj (setKey fsAcc (jsOr (normalize cfg).aliasName k)
              childV) :: rr, ks, false :: ar, none, 0, m0, ems, fr⟩ := hpop
      refine ⟨setKey fsAcc (jsOr (normalize cfg).aliasName k) childV, [],
        ?_, by simp, fun _ => rfl⟩
      simp only [List.length_nil, Nat.add_zero, List.append_nil]
      simp only [tokensOf, runEng, hstep]
      rw [runEng_append, heqf]
      dsimp only
      simp only [runEng, hstep2]
  | arr esIn =>
    intro n sr fsAcc rr ks ar k m0 ems fr hbot
    rcases hlk : selLookup (SelVal.node n) (some k) with _ | cfg
    · have hstep : engStep none e ⟨SelVal.node n :: sr,
          Value.vobj fsAcc :: rr, ks, false :: ar, some k, 0, m0, ems, fr⟩
          Tok.lbracket =
          .ok ⟨SelVal.fls :: SelVal.node n :: sr, Value.vobj fsAcc :: rr,
            some k :: ks, true :: false :: ar, none, 1, m0, ems, fr⟩ :=
        startInObj_skip true n sr fsAcc rr ks ar k m0 ems fr hlk
      refine ⟨fsAcc, [], ?_, by simp, fun _ => rfl⟩
      simp only [List.length_nil, Nat.add_zero, List.append_nil]
      simp only [tokensOf, runEng, hstep]
      rw [runEng_append]
      rw [skipArrToks none e esIn _ (Nat.le_refl 1)]
      have hstep2 : engStep none e ⟨SelVal.fls :: SelVal.node n :: sr,
          Value.vobj fsAcc :: rr, some k :: ks, true :: false :: ar, none,
          1, m0, ems, fr⟩ Tok.rbracket =
          .ok ⟨SelVal.node n :: sr, Value.vobj fsAcc :: rr, ks, false :: ar,
            none, 0, m0, ems, fr⟩ := rfl
      simp only [runEng, hstep2]
    · have hstep : engStep none e ⟨SelVal.node n :: sr,
          Value.vobj fsAcc :: rr, ks, false :: ar, some k, 0, m0, ems, fr⟩
          Tok.lbracket =
          .ok ⟨SelVal.node (normalize cfg) :: SelVal.node n :: sr,
            Value.varr [] :: Value.vobj fsAcc :: rr,
            some (jsOr (normalize cfg).aliasName k) :: ks,
            true :: false :: ar, none, 0, m0, ems, fr⟩ :=
        startInObj_push true n sr fsAcc rr ks ar k m0 ems fr cfg hlk
      obtain ⟨esIn2, heqf⟩ :=
        elemsRun e esIn (normalize cfg) (SelVal.node n :: sr) []
          (Value.vobj fsAcc :: rr)
          (some (jsOr (normalize cfg).aliasName k) :: ks) (false :: ar) m0
          ems fr (by rw [bottomIsArray_cons₂]; exact hbot)
      obtain ⟨childV, hpop⟩ := onStructureEnd_innerObj e true
        (normalize cfg) n sr (Value.varr esIn2) fsAcc rr
        (jsOr (normalize cfg).aliasName k) ks ar m0 ems fr hbot
      have hstep2 : engStep none e
          ⟨SelVal.node (normalize cfg) :: SelVal.node n :: sr,
            Value.varr esIn2 :: Value.vobj fsAcc :: rr,
            some (jsOr (normalize cfg).aliasName k) :: ks,
            true :: false :: ar, none, 0, m0, ems, fr⟩ Tok.rbracket =
          .ok ⟨SelVal.node n :: sr,
            Value.vobj (setKey fsAcc (jsOr (normalize cfg).aliasName k)
              childV) :: rr, ks, false :: ar, none, 0, m0, ems, fr⟩ := hpop
      refine ⟨setKey fsAcc (jsOr (normalize cfg).aliasName k) childV, [],
        ?_, by simp, fun _ => rfl⟩
      simp only [List.length_nil, Nat.add_zero, List.append_nil]
      simp only [tokensOf, runEng, hstep]
      rw [runEng_append, heqf]
      dsimp only
      simp only [runEng, hstep2]

/-- Processing one JSON value in array-element position: the run succeeds,
the parent array possibly gains the element, and nothing is emitted. -/
theorem valueArrRun (e : ℕ) (j : Json) : ∀ (n : Node) (sr : List SelVal)
    (esAcc rr : List Value) (ks : List (Option String)) (ar : List Bool)
    (m0 : ℕ) (ems : List Emission) (fr : Option Value),
    bottomIsArray (true :: ar) = false →
    ∃ esAcc2,
      runEng none e ⟨SelVal.node n :: sr, Value.varr esAcc :: rr, ks,
          true :: ar, none, 0, m0, ems, fr⟩ (tokensOf j) =
        (⟨SelVal.node n :: sr, Value.varr esAcc2 :: rr, ks, true :: ar,
          none, 0, m0, ems, fr⟩, none) := by
  cases j with
  | str s0 =>
    intro n sr esAcc rr ks ar m0 ems fr hbot
    obtain ⟨esAcc2, heq⟩ :=
      valueScalarArr e (Value.vstr s0) n sr esAcc rr ks ar m0 ems fr
    refine ⟨esAcc2, ?_⟩
    have hstep : engStep none e ⟨SelVal.node n :: sr,
        Value.varr esAcc :: rr, ks, true :: ar, none, 0, m0, ems, fr⟩
        (Tok.str s0) =
        .ok ⟨SelVal.node n :: sr, Value.varr esAcc2 :: rr, ks, true :: ar,
          none, 0, m0, ems, fr⟩ := heq
    simp only [tokensOf, runEng, hstep]
  | num q =>
    intro n sr esAcc rr ks ar m0 ems fr hbot
    obtain ⟨esAcc2, heq⟩ :=
      valueScalarArr e (Value.vnum q) n sr esAcc rr ks ar m0 ems fr
    refine ⟨esAcc2, ?_⟩
    have hstep : engStep none e ⟨SelVal.node n :: sr,
        Value.varr esAcc :: rr, ks, true :: ar, none, 0, m0, ems, fr⟩
        (Tok.num (JsNum.num q)) =
        .ok ⟨SelVal.node n :: sr, Value.varr esAcc2 :: rr, ks, true :: ar,
          none, 0, m0, ems, fr⟩ := heq
    simp only [tokensOf, runEng, hstep]
  | bool bv =>
    cases bv with
    | true =>
      intro n sr esAcc rr ks ar m0 ems fr hbot
      obtain ⟨esAcc2, heq⟩ :=
        valueScalarArr e (Value.vbool true) n sr esAcc rr ks ar m0 ems fr
      refine ⟨esAcc2, ?_⟩
      have hstep : engStep none e ⟨SelVal.node n :: sr,
          Value.varr esAcc :: rr, ks, true :: ar, none, 0, m0, ems, fr⟩
          Tok.tru =
          .ok ⟨SelVal.node n :: sr, Value.varr esAcc2 :: rr, ks, true :: ar,
            none, 0, m0, ems, fr⟩ := heq
      simp only [tokensOf, runEng, hstep]
    | false =>
      intro n sr esAcc rr ks ar m0 ems fr hbot
      obtain ⟨esAcc2, heq⟩ :=
        valueScalarArr e (Value.vbool false) n sr esAcc rr ks ar m0 ems fr
      refine ⟨esAcc2, ?_⟩
      have hstep : engStep none e ⟨SelVal.node n :: sr,
          Value.varr esAcc :: rr, ks, true :: ar, none, 0, m0, ems, fr⟩
          Tok.fls =
          .ok ⟨SelVal.node n :: sr, Value.varr esAcc2 :: rr, ks, true :: ar,
            none, 0, m0, ems, fr⟩ := heq
      simp only [tokensOf, runEng, hstep]
  | null =>
    intro n sr esAcc rr ks ar m0 ems fr hbot
    obtain ⟨esAcc2, heq⟩ :=
      valueScalarArr e Value.vnull n sr esAcc rr ks ar m0 ems fr
    refine ⟨esAcc2, ?_⟩
    have hstep : engStep none e ⟨SelVal.node n :: sr,
        Value.varr esAcc :: rr, ks, true :: ar, none, 0, m0, ems, fr⟩
        Tok.nul =
        .ok ⟨SelVal.node n :: sr, Value.varr esAcc2 :: rr, ks, true :: ar,
          none, 0, m0, ems, fr⟩ := heq
    simp only [tokensOf, runEng, hstep]
  | obj fsIn =>
    intro n sr esAcc rr ks ar m0 ems fr hbot
    have hstep : engStep none e ⟨SelVal.node n :: sr,
        Value.varr esAcc :: rr, ks, true :: ar, none, 0, m0, ems, fr⟩
        Tok.lbrace =
        .ok ⟨SelVal.node n :: SelVal.node n :: sr,
          Value.vobj [] :: Value.varr esAcc :: rr, none :: ks,
          false :: true :: ar, none, 0, m0, ems, fr⟩ :=
      startInArr false n sr esAcc rr ks ar m0 ems fr
    obtain ⟨fsIn2, news1, heqf, hsites1, hrr1⟩ :=
      fieldsRun e fsIn n (SelVal.node n :: sr) [] (Value.varr esAcc :: rr)
        (none :: ks) (true :: ar) m0 ems fr
        (by rw [bottomIsArray_cons₂]; exact hbot)
    have hn1 : news1 = [] := hrr1 (by simp)
    subst hn1
    simp only [List.length_nil, Nat.add_zero, List.append_nil] at heqf
    have hpop := onStructureEnd_innerArr e false n n sr (Value.vobj fsIn2)
      esAcc rr ks ar m0 ems fr hbot
    have hstep2 : engStep none e ⟨SelVal.node n :: SelVal.node n :: sr,
        Value.vobj fsIn2 :: Value.varr esAcc :: rr, none :: ks,
        false :: true :: ar, none, 0, m0, ems, fr⟩ Tok.rbrace =
        .ok ⟨SelVal.node n :: sr,
          Value.varr (esAcc ++ [Value.vobj fsIn2]) :: rr, ks, true :: ar,
          none, 0, m0, ems, fr⟩ := hpop
    refine ⟨esAcc ++ [Value.vobj fsIn2], ?_⟩
    simp only [tokensOf, runEng, hstep]
    rw [runEng_append, heqf]
    dsimp only
    simp only [runEng, hstep2]
  | arr esIn =>
    intro n sr esAcc rr ks ar m0 ems fr hbot
    have hstep : engStep none e ⟨SelVal.node n :: sr,
        Value.varr esAcc :: rr, ks, true :: ar, none, 0, m0, ems, fr⟩
        Tok.lbracket =
        .ok ⟨SelVal.node n :: SelVal.node n :: sr,
          Value.varr [] :: Value.varr esAcc :: rr, none :: ks,
          true :: true :: ar, none, 0, m0, ems, fr⟩ :=
      startInArr true n sr esAcc rr ks ar m0 ems fr
    obtain ⟨esIn2, heqf⟩ :=
      elemsRun e esIn n (SelVal.node n :: sr) [] (Value.varr esAcc :: rr)
        (none :: ks) (true :: ar) m0 ems fr
        (by rw [bottomIsArray_cons₂]; exact hbot)
    have hpop := onStructureEnd_innerArr e true n n sr (Value.varr esIn2)
      esAcc rr ks ar m0 ems fr hbot
    have hstep2 : engStep none e ⟨SelVal.node n :: SelVal.node n :: sr,
        Value.varr esIn2 :: Value.varr esAcc :: rr, none :: ks,
        true :: true :: ar, none, 0, m0, ems, fr⟩ Tok.rbracket =
        .ok ⟨SelVal.node n :: sr,
          Value.varr (esAcc ++ [Value.varr esIn2]) :: rr, ks, true :: ar,
          none, 0, m0, ems, fr⟩ := hpop
    refine ⟨esAcc ++ [Value.varr esIn2], ?_⟩
    simp only [tokensOf, runEng, hstep]
    rw [runEng_append, heqf]
    dsimp only
    simp only [runEng, hstep2]

/-- Processing an object body in key-expecting position: the run succeeds,
fields accumulate into the open object, and leaf matches are emitted only
at nesting depth one. -/
theorem fieldsRun (e : ℕ) (fs : JObj) : ∀ (n : Node) (sr : List SelVal)
    (fsAcc : List (String × Value)) (rr : List Value)
    (ks : List (Option String)) (ar : List Bool) (m0 : ℕ)
    (ems : List Emission) (fr : Option Value),
    bottomIsArray (false :: ar) = false →
    ∃ fsAcc2 news,
      runEng none e ⟨SelVal.node n :: sr, Value.vobj fsAcc :: rr, ks,
          false :: ar, none, 0, m0, ems, fr⟩ (objToks fs) =
        (⟨SelVal.node n :: sr, Value.vobj fsAcc2 :: rr, ks, false :: ar,
          none, 0, m0 + news.length, ems ++ news, fr⟩, none) ∧
      (∀ x ∈ news, x.site = ESite.leafValue) ∧
      (rr ≠ [] → news = []) := by
  cases fs with
  | nil =>
    intro n sr fsAcc rr ks ar m0 ems fr hbot
    refine ⟨fsAcc, [], ?_, by simp, fun _ => rfl⟩
    simp [objToks, runEng]
  | cons k v tl =>
    intro n sr fsAcc rr ks ar m0 ems fr hbot
    have h1 : engStep none e ⟨SelVal.node n :: sr, Value.vobj fsAcc :: rr,
        ks, false :: ar, none, 0, m0, ems, fr⟩ (Tok.str k) =
        .ok ⟨SelVal.node n :: sr, Value.vobj fsAcc :: rr, ks, false :: ar,
          some k, 0, m0, ems, fr⟩ := rfl
    have h2 : engStep none e ⟨SelVal.node n :: sr, Value.vobj fsAcc :: rr,
        ks, false :: ar, some k, 0, m0, ems, fr⟩ Tok.colon =
        .ok ⟨SelVal.node n :: sr, Value.vobj fsAcc :: rr, ks, false :: ar,
          some k, 0, m0, ems, fr⟩ := rfl
    obtain ⟨fsAcc2, news1, heqv, hsites1, hrr1⟩ :=
      valueObjRun e v n sr fsAcc rr ks ar k m0 ems fr hbot
    obtain ⟨fsAcc3, news2, heqr, hsites2, hrr2⟩ :=
      fieldsRestRun e tl n sr fsAcc2 rr ks ar (m0 + news1.length)
        (ems ++ news1) fr hbot
    refine ⟨fsAcc3, news1 ++ news2, ?_, ?_, ?_⟩
    · simp only [objToks, runEng, h1, h2]
      rw [runEng_append, heqv]
      dsimp only
      rw [heqr]
      simp only [List.length_append, List.append_assoc, Nat.add_assoc]
    · intro x hx
      rcases List.mem_append.mp hx with h | h
      · exact hsites1 x h
      · exact hsites2 x h
    · intro hne
      rw [hrr1 hne, hrr2 hne]
      rfl

/-- Processing an object body continuation (leading comma). -/
theorem fieldsRestRun (e : ℕ) (fs : JObj) : ∀ (n : Node) (sr : List SelVal)
    (fsAcc : List (String × Value)) (rr : List Value)
    (ks : List (Option String)) (ar : List Bool) (m0 : ℕ)
    (ems : List Emission) (fr : Option Value),
    bottomIsArray (false :: ar) = false →
    ∃ fsAcc2 news,
      runEng none e ⟨SelVal.node n :: sr, Value.vobj fsAcc :: rr, ks,
          false :: ar, none, 0, m0, ems, fr⟩ (objRestToks fs) =
        (⟨SelVal.node n :: sr, Value.vobj fsAcc2 :: rr, ks, false :: ar,
          none, 0, m0 + news.length, ems ++ news, fr⟩, none) ∧
      (∀ x ∈ news, x.site = ESite.leafValue) ∧
      (rr ≠ [] → news = []) := by
  cases fs with
  | nil =>
    intro n sr fsAcc rr ks ar m0 ems fr hbot
    refine ⟨fsAcc, [], ?_, by simp, fun _ => rfl⟩
    simp [objRestToks, runEng]
  | cons k v tl =>
    intro n sr fsAcc rr ks ar m0 ems fr hbot
    have h0 : engStep none e ⟨SelVal.node n :: sr, Value.vobj fsAcc :: rr,
        ks, false :: ar, none, 0, m0, ems, fr⟩ Tok.comma =
        .ok ⟨SelVal.node n :: sr, Value.vobj fsAcc :: rr, ks, false :: ar,
          none, 0, m0, ems, fr⟩ := rfl
    have h1 : engStep none e ⟨SelVal.node n :: sr, Value.vobj fsAcc :: rr,
        ks, false :: ar, none, 0, m0, ems, fr⟩ (Tok.str k) =
        .ok ⟨SelVal.node n :: sr, Value.vobj fsAcc :: rr, ks, false :: ar,
          some k, 0, m0, ems, fr⟩ := rfl
    have h2 : engStep none e ⟨SelVal.node n :: sr, Value.vobj fsAcc :: rr,
        ks, false :: ar, some k, 0, m0, ems, fr⟩ Tok.colon =
        .ok ⟨SelVal.node n :: sr, Value.vobj fsAcc :: rr, ks, false :: ar,
          some k, 0, m0, ems, fr⟩ := rfl
    obtain ⟨fsAcc2, news1, heqv, hsites1, hrr1⟩ :=
      valueObjRun e v n sr fsAcc rr ks ar k m0 ems fr hbot
    obtain ⟨fsAcc3, news2, heqr, hsites2, hrr2⟩ :=
      fieldsRestRun e tl n sr fsAcc2 rr ks ar (m0 + news1.length)
        (ems ++ news1) fr hbot
    refine ⟨fsAcc3, news1 ++ news2, ?_, ?_, ?_⟩
    · simp only [objRestToks, runEng, h0, h1, h2]
      rw [runEng_append, heqv]
      dsimp only
      rw [heqr]
      simp only [List.length_append, List.append_assoc, Nat.add_assoc]
    · intro x hx
      rcases List.mem_append.mp hx with h | h
      · exact hsites1 x h
      · exact hsites2 x h
    · intro hne
      rw [hrr1 hne, hrr2 hne]
      rfl

/-- Processing an array body: the run succeeds, elements accumulate into
the open array, and nothing is emitted. -/
theorem elemsRun (e : ℕ) (es : JArr) : ∀ (n : Node) (sr : List SelVal)
    (esAcc rr : List Value) (ks : List (Option String)) (ar : List Bool)
    (m0 : ℕ) (ems : List Emission) (fr : Option Value),
    bottomIsArray (true :: ar) = false →
    ∃ esAcc2,
      runEng none e ⟨SelVal.node n :: sr, Value.varr esAcc :: rr, ks,
          true :: ar, none, 0, m0, ems, fr⟩ (arrToks es) =
        (⟨SelVal.node n :: sr, Value.varr esAcc2 :: rr, ks, true :: ar,
          none, 0, m0, ems, fr⟩, none) := by
  cases es with
  | nil =>
    intro n sr esAcc rr ks ar m0 ems fr hbot
    exact ⟨esAcc, rfl⟩
  | cons v tl =>
    intro n sr esAcc rr ks ar m0 ems fr hbot
    obtain ⟨esAcc2, heqv⟩ :=
      valueArrRun e v n sr esAcc rr ks ar m0 ems fr hbot
    obtain ⟨esAcc3, heqr⟩ :=
      elemsRestRun e tl n sr esAcc2 rr ks ar m0 ems fr hbot
    refine ⟨esAcc3, ?_⟩
    simp only [arrToks]
    rw [runEng_append, heqv]
    dsimp only
    exact heqr

/-- Processing an array body continuation (leading comma). -/
theorem elemsRestRun (e : ℕ) (es : JArr) : ∀ (n : Node) (sr : List SelVal)
    (esAcc rr : List Value) (ks : List (Option String)) (ar : List Bool)
    (m0 : ℕ) (ems : List Emission) (fr : Option Value),
    bottomIsArray (true :: ar) = false →
    ∃ esAcc2,
      runEng none e ⟨SelVal.node n :: sr, Value.varr esAcc :: rr, ks,
          true :: ar, none, 0, m0, ems, fr⟩ (arrRestToks es) =
        (⟨SelVal.node n :: sr, Value.varr esAcc2 :: rr, ks, true :: ar,
          none, 0, m0, ems, fr⟩, none) := by
  cases es with
  | nil =>
    intro n sr esAcc rr ks ar m0 ems fr hbot
    exact ⟨esAcc, rfl⟩
  | cons v tl =>
    intro n sr esAcc rr ks ar m0 ems fr hbot
    have h0 : engStep none e ⟨SelVal.node n :: sr, Value.varr esAcc :: rr,
        ks, true :: ar, none, 0, m0, ems, fr⟩ Tok.comma =
        .ok ⟨SelVal.node n :: sr, Value.varr esAcc :: rr, ks, true :: ar,
          none, 0, m0, ems, fr⟩ := rfl
    obtain ⟨esAcc2, heqv⟩ :=
      valueArrRun e v n sr esAcc rr ks ar m0 ems fr hbot
    obtain ⟨esAcc3, heqr⟩ :=
      elemsRestRun e tl n sr esAcc2 rr ks ar m0 ems fr hbot
    refine ⟨esAcc3, ?_⟩
    simp only [arrRestToks, runEng, h0]
    rw [runEng_append, heqv]
    dsimp only
    exact heqr
end

/-- C1 (amended): over any input whose root is a JSON object and any
selection, the run completes without error and the sink sees one match per
selected top-level scalar field (site `leafValue`) followed by exactly one
final `rootObject` match whose argument is the completed root projection,
the same value the run records as its final result; onMatch is therefore
not in general invoked exactly once. -/
theorem c1_amended (fs : JObj) (m : SelMap) (e : ℕ) :
    ∃ v news,
      runEng none e (initEng m) (tokensOf (Json.obj fs)) =
        (⟨[SelVal.node ⟨none, some m, none⟩], [], [], [], none, 0,
          news.length + 1, news ++ [⟨ESite.rootObject, v⟩], some v⟩,
          none) ∧
      (∀ x ∈ news, x.site = ESite.leafValue) := by
  have hopen : engStep none e (initEng m) Tok.lbrace =
      .ok ⟨[SelVal.node ⟨none, some m, none⟩,
          SelVal.node ⟨none, some m, none⟩],
        [Value.vobj []], [none], [false], none, 0, 0, [], none⟩ := rfl
  obtain ⟨fsAcc2, news, heqf, hsites, _⟩ :=
    fieldsRun e fs ⟨none, some m, none⟩
      [SelVal.node ⟨none, some m, none⟩] [] [] [none] [] 0 [] none rfl
  simp only [List.nil_append, Nat.zero_add] at heqf
  have hpop : engStep none e ⟨[SelVal.node ⟨none, some m, none⟩,
      SelVal.node ⟨none, some m, none⟩], [Value.vobj fsAcc2], [none],
      [false], none, 0, news.length, news, none⟩ Tok.rbrace =
      .ok ⟨[SelVal.node ⟨none, some m, none⟩], [], [], [], none, 0,
        news.length + 1,
        news ++ [⟨ESite.rootObject,
          Value.vobj (applyMissingDefaults m fsAcc2)⟩],
        some (Value.vobj (applyMissingDefaults m fsAcc2))⟩ := rfl
  refine ⟨Value.vobj (applyMissingDefaults m fsAcc2), news, ?_, hsites⟩
  simp only [tokensOf, runEng, hopen]
  rw [runEng_append, heqf]
  dsimp only
  simp only [runEng, hpop]

/-- Witness for the amended C1 at a concrete one-field root object. -/
theorem c1_amended_witness :
    ∃ v news,
      runEng none 0 (initEng [("a", Config.pass)])
          (tokensOf (Json.obj (JObj.cons "a" (Json.bool true) JObj.nil))) =
        (⟨[SelVal.node ⟨none, some [("a", Config.pass)], none⟩], [], [], [],
          none, 0, news.length + 1, news ++ [⟨ESite.rootObject, v⟩],
          some v⟩, none) ∧
      (∀ x ∈ news, x.site = ESite.leafValue) :=
  c1_amended (JObj.cons "a" (Json.bool true) JObj.nil)
    [("a", Config.pass)] 0

/-- C1 (refutation of the literal claim): on the one-field root object with
that field selected, the sink's onMatch is invoked twice, not exactly once:
a leaf match precedes the root match. -/
theorem c1_counterexample :
    (runEng none 0 (initEng [("a", Config.pass)])
        (tokensOf (Json.obj (JObj.cons "a" (Json.bool true) JObj.nil)))).2 =
      none ∧
    (runEng none 0 (initEng [("a", Config.pass)])
        (tokensOf (Json.obj (JObj.cons "a" (Json.bool true)
          JObj.nil)))).1.emissions.length = 2 ∧
    ¬((runEng none 0 (initEng [("a", Config.pass)])
        (tokensOf (Json.obj (JObj.cons "a" (Json.bool true)
          JObj.nil)))).1.emissions.length = 1) ∧
    (runEng none 0 (initEng [("a", Config.pass)])
        (tokensOf (Json.obj (JObj.cons "a" (Json.bool true)
          JObj.nil)))).1.emissions.map (fun em => em.site) =
      [ESite.leafValue, ESite.rootObject] := by
  refine ⟨rfl, rfl, by decide, rfl⟩

end Strime

